import Mathlib

/-!
# A verification model of `photomover.py`

This file is a shallow embedding of the photo-organizing program
`src/photomover.py`.  Python strings are modelled as `List Char`, the
filesystem as an association list from path to an abstract content value
(`filecmp.cmp` becomes equality of contents), and the side-effecting
functions (`process_file`, `organize_files`) as pure state-passing
functions.  The embedded definitions keep the names of the Python
functions they translate.
-/

/-- Paths (Python `str`) are modelled as lists of characters. -/
abbrev PPath := List Char

/-- File contents are abstracted to one comparable value per file;
`filecmp.cmp(a, b)` is modelled as equality of the two contents. -/
abbrev Content := Nat

/-- The filesystem visible to `os.path.exists` / `shutil` / `filecmp`:
an association list from path to content (first binding wins). -/
abbrev FS := List (PPath × Content)

/-- The dry-run ledger `dry_run_history`: destination path ↦ source path. -/
abbrev Ledger := List (PPath × PPath)

/-- Reading a file's content: `none` when the path does not exist. -/
def fsGet : FS → PPath → Option Content
  | [], _ => none
  | (q, c) :: rest, p => if q = p then some c else fsGet rest p

/-- `os.path.exists`. -/
def fsExists (fs : FS) (p : PPath) : Bool :=
  (fsGet fs p).isSome

/-- `os.remove`. -/
def fsRemove : FS → PPath → FS
  | [], _ => []
  | (q, c) :: rest, p => if q = p then fsRemove rest p else (q, c) :: fsRemove rest p

/-- Ledger lookup (`dry_run_history[path]`, as an `Option`). -/
def histGet : Ledger → PPath → Option PPath
  | [], _ => none
  | (q, s) :: rest, p => if q = p then some s else histGet rest p

/-! ## Decimal rendering of the duplicate counter (Python `f"{counter}"`) -/
/-- One decimal digit as a character. -/
def digitCh : Nat → Char
  | 0 => '0' | 1 => '1' | 2 => '2' | 3 => '3' | 4 => '4'
  | 5 => '5' | 6 => '6' | 7 => '7' | 8 => '8' | _ => '9'

/-- Fuelled digit printer (most significant digit first). -/
def natReprAux : Nat → Nat → PPath
  | 0, _ => []
  | fuel + 1, n => if n = 0 then [] else natReprAux fuel (n / 10) ++ [digitCh (n % 10)]

/-- Decimal rendering of a natural number, as produced by `f"{n}"`. -/
def natRepr (n : Nat) : PPath :=
  if n = 0 then ['0'] else natReprAux (n + 1) n

/-- Reading a decimal string back (used only to prove `natRepr` injective). -/
def unrepr (s : PPath) : Nat :=
  s.foldl (fun acc c => acc * 10 + (c.toNat - 48)) 0

/-! ## String-prefix machinery -/
/-- `hasPfx pre p` decides whether `pre` is a leading segment of `p`. -/
def hasPfx : PPath → PPath → Bool
  | [], _ => true
  | _ :: _, [] => false
  | a :: as, b :: bs => if a = b then hasPfx as bs else false

/-! ## PPath helpers (`os.path` helpers) -/
/-- Index of the last occurrence of `c` in `s` (Python `s.rfind(c)`,
with `none` instead of `-1`). -/
def rfindIdx (c : Char) : PPath → Option Nat
  | [] => none
  | x :: xs =>
    match rfindIdx c xs with
    | some j => some (j + 1)
    | none => if x = c then some 0 else none

/-- The split position used by `os.path.splitext`: the index of the last
dot, provided it lies inside the final path component and that component
does not consist solely of leading dots up to it; otherwise the string
length (no extension). -/
def splitextIdx (p : PPath) : Nat :=
  match rfindIdx '.' p with
  | none => p.length
  | some di =>
    let si : Nat := match rfindIdx '/' p with | none => 0 | some j => j + 1
    if decide (si ≤ di) && ((p.drop si).take (di - si)).any (fun c => decide (c ≠ '.')) then
      di
    else
      p.length

/-- `os.path.splitext`: root and extension. -/
def splitext (p : PPath) : PPath × PPath :=
  (p.take (splitextIdx p), p.drop (splitextIdx p))

/-- `os.path.basename`. -/
def basename (p : PPath) : PPath :=
  match rfindIdx '/' p with
  | none => p
  | some j => p.drop (j + 1)

/-- `os.path.join a b`, for the ordinary case of a relative second
component and no trailing separator on the first. -/
def pathJoin (a b : PPath) : PPath :=
  a ++ '/' :: b

/-! ## The duplicate resolver (`resolve_duplicate`)

The Python loop condition is
`(dry_run_history and new_path in dry_run_history) or
 (not dry_run_history and os.path.exists(new_path))`;
note that an *empty* dictionary is falsy, so a dry run with an empty
ledger queries the real filesystem. -/
/-- Does the current state claim `p`?  Faithful to the loop condition,
including the truthiness of the empty dictionary. -/
def claimedOf (hist : Option Ledger) (fs : FS) (p : PPath) : Bool :=
  match hist with
  | some h => if h.isEmpty then fsExists fs p else (histGet h p).isSome
  | none => fsExists fs p

/-- Content of the occupant compared by `filecmp.cmp(source_path, dest_compare)`:
with a truthy ledger, `dest_compare = dry_run_history[new_path]` (the recorded
source file); otherwise `dest_compare = new_path` itself. -/
def occOf (hist : Option Ledger) (fs : FS) (p : PPath) : Option Content :=
  match hist with
  | some h => if h.isEmpty then fsGet fs p else (histGet h p).bind (fsGet fs)
  | none => fsGet fs p

/-- The renamed candidate `f"{base}_{counter}{extension}"`. -/
def cand (base ext : PPath) (n : Nat) : PPath :=
  base ++ '_' :: (natRepr n ++ ext)

/-- Candidate chain of a desired destination path: index 0 is the desired
path itself; index `n + 1` carries the `_N` suffix before the extension. -/
def topCand (desired : PPath) : Nat → PPath
  | 0 => desired
  | n + 1 => cand (splitext desired).1 (splitext desired).2 (n + 1)

/-- The `while` loop of `resolve_duplicate`, with explicit fuel (shown
never to run out below).  `some none` models `return None` (duplicate),
`some (some p)` models `return new_path`. -/
def resolveLoop (claimedF : PPath → Bool) (occF : PPath → Option Content)
    (srcC : Option Content) (base ext : PPath) :
    Nat → PPath → Nat → Option (Option PPath)
  | 0, _, _ => none
  | fuel + 1, p, counter =>
    if claimedF p then
      if occF p = srcC then
        some none
      else
        resolveLoop claimedF occF srcC base ext fuel (cand base ext counter) (counter + 1)
    else
      some (some p)

/-- The finitely many paths the current state can claim. -/
def claimKeys (hist : Option Ledger) (fs : FS) : List PPath :=
  match hist with
  | some h => if h.isEmpty then fs.map Prod.fst else h.map Prod.fst
  | none => fs.map Prod.fst

/-- Fuel that always suffices for the loop. -/
def resolveFuel (hist : Option Ledger) (fs : FS) : Nat :=
  (claimKeys hist fs).length + 3

/-- `resolve_duplicate(new_path, source_path, dry_run_history)`; the extra
`fs` argument is the filesystem read by `os.path.exists` and `filecmp.cmp`.
The `getD` default is dead code by `resolve_duplicate_total`. -/
def resolve_duplicate (new_path source_path : PPath) (hist : Option Ledger)
    (fs : FS) : Option PPath :=
  (resolveLoop (claimedOf hist fs) (occOf hist fs) (fsGet fs source_path)
      (splitext new_path).1 (splitext new_path).2
      (resolveFuel hist fs) new_path 1).getD (some new_path)

/-! ## Dates, validation and placement -/
/-- A parsed `datetime` value. -/
structure PDate where
  year : Nat
  month : Nat
  day : Nat
  hour : Nat
  minute : Nat
  second : Nat
deriving DecidableEq, Repr

/-- `validate_parsed_date`: its whole body is `return parsed_date`, under
the comment `TODO check if date is correct, > 1900 etc...`. -/
def validate_parsed_date (parsed_date : PDate) : PDate :=
  parsed_date

def isLeap (y : Nat) : Bool :=
  (decide (y % 4 = 0) && decide (y % 100 ≠ 0)) || decide (y % 400 = 0)

def daysInMonth (y m : Nat) : Nat :=
  if m = 2 then (if isLeap y then 29 else 28)
  else if m = 4 ∨ m = 6 ∨ m = 9 ∨ m = 11 then 30
  else 31

/-- The dates `datetime(...)` accepts (seconds 60/61 are rejected by the
constructor even where `%S` scans them, so `strptime` raises for them). -/
def validDate (y m d h mi s : Nat) : Bool :=
  decide (1 ≤ y) && decide (y ≤ 9999) && decide (1 ≤ m) && decide (m ≤ 12) &&
  decide (1 ≤ d) && decide (d ≤ daysInMonth y m) &&
  decide (h ≤ 23) && decide (mi ≤ 59) && decide (s ≤ 59)

def mkDate (y m d h mi s : Nat) : Option PDate :=
  if validDate y m d h mi s then some ⟨y, m, d, h, mi, s⟩ else none

/-- All-digit decimal read; `none` models a `ValueError` from `strptime`. -/
def readNat (s : PPath) : Option Nat :=
  if s.all Char.isDigit && !s.isEmpty then some (unrepr s) else none

/-- Lower-cased `%b` month abbreviations.  The script sets the user's
locale; the model uses the portable English table. -/
def monthAbbrev : Nat → PPath
  | 1 => "jan".data | 2 => "feb".data | 3 => "mar".data | 4 => "apr".data
  | 5 => "may".data | 6 => "jun".data | 7 => "jul".data | 8 => "aug".data
  | 9 => "sep".data | 10 => "oct".data | 11 => "nov".data | _ => "dec".data

/-- Two-digit zero-padded rendering (`%m`). -/
def pad2 (n : Nat) : PPath :=
  if n < 10 then '0' :: natRepr n else natRepr n

/-- The destination directory `new_dir` computed by `process_file`:
`os.path.join(dest_dir, date.strftime('%Y'), date.strftime('%m') + '-' +
date.strftime('%b').lower())`, or `os.path.join(dest_dir, no_date_dir)`. -/
def newDirOf (dest_dir no_date_dir : PPath) : Option PDate → PPath
  | none => pathJoin dest_dir no_date_dir
  | some d =>
    pathJoin (pathJoin dest_dir (natRepr d.year))
      (pad2 d.month ++ '-' :: monthAbbrev d.month)

/-- The desired destination `new_path` (before duplicate resolution). -/
def desiredPath (file_path : PPath) (date_taken : Option PDate)
    (dest_dir no_date_dir : PPath) : PPath :=
  pathJoin (newDirOf dest_dir no_date_dir date_taken) (basename file_path)

/-! ## The orchestrator state and `process_file` -/
/-- The global `stats` dictionary. -/
structure Stats where
  processed : Nat
  nodate : Nat
  duplicates : Nat
  renamed : Nat
deriving DecidableEq, Repr

def zeroStats : Stats := ⟨0, 0, 0, 0⟩

/-- State threaded through the run: the filesystem, the optional dry-run
ledger (`None` in live mode), the counters, and the printed per-file
decisions (`(file_path, some dest)` for a copy/move line, `(file_path,
none)` for an `identical` line). -/
structure PMState where
  fs : FS
  hist : Option Ledger
  stats : Stats
  log : List (PPath × Option PPath)
deriving DecidableEq, Repr

/-- `process_file(file_path, date_taken, dest_dir, dry_run, move,
dry_run_history, no_date_dir)`.  `shutil.copy2`/`shutil.move` append the
new file (a missing source would raise in Python and leaves the model
state unchanged); in a dry run the ledger is extended instead. -/
def process_file (file_path : PPath) (date_taken : Option PDate)
    (dest_dir : PPath) (dry_run move : Bool) (no_date_dir : PPath)
    (st : PMState) : PMState :=
  let stats0 := if date_taken.isNone then
      { st.stats with nodate := st.stats.nodate + 1 } else st.stats
  let new_path := desiredPath file_path date_taken dest_dir no_date_dir
  let fixed_new_path := resolve_duplicate new_path file_path st.hist st.fs
  let stats1 := if fixed_new_path ≠ some new_path then
      { stats0 with renamed := stats0.renamed + 1 } else stats0
  match fixed_new_path with
  | none =>
    { st with
      stats := { stats1 with duplicates := stats1.duplicates + 1 },
      fs := if move && !dry_run then fsRemove st.fs file_path else st.fs,
      log := st.log ++ [(file_path, none)] }
  | some q =>
    if dry_run then
      { st with
        stats := { stats1 with processed := stats1.processed + 1 },
        hist := st.hist.map (fun h => h ++ [(q, file_path)]),
        log := st.log ++ [(file_path, some q)] }
    else
      { st with
        stats := { stats1 with processed := stats1.processed + 1 },
        fs := match fsGet st.fs file_path with
              | some c => (if move then fsRemove st.fs file_path else st.fs) ++ [(q, c)]
              | none => st.fs,
        log := st.log ++ [(file_path, some q)] }

/-- Per-file processing of `organize_files`, with the dates already
resolved (files listed in processing order). -/
def runFiles (files : List (PPath × Option PDate)) (dest_dir : PPath)
    (dry_run move : Bool) (no_date_dir : PPath) (st : PMState) : PMState :=
  files.foldl (fun s fd => process_file fd.1 fd.2 dest_dir dry_run move no_date_dir s) st

/-- The batch dispatch in `organize_files`:
`for path, date in zip(exif_batch_paths, dates_taken): process_file(...)`. -/
def processBatch (paths : List PPath) (dates : List (Option PDate))
    (dest_dir : PPath) (dry_run move : Bool) (no_date_dir : PPath)
    (st : PMState) : PMState :=
  (paths.zip dates).foldl
    (fun s pd => process_file pd.1 pd.2 dest_dir dry_run move no_date_dir s) st

/-- Initial state of a run (`dry_run_history = {} if dry_run else None`). -/
def initState (fs : FS) (dry_run : Bool) : PMState :=
  { fs := fs, hist := if dry_run then some [] else none,
    stats := zeroStats, log := [] }

/-! ## The metadata date resolver -/
/-- One metadata record: tag name ↦ string value. -/
abbrev Record := List (PPath × PPath)

/-- `metadata.get(tag)`. -/
def recGet : Record → PPath → Option PPath
  | [], _ => none
  | (t, v) :: rest, tag => if t = tag then some v else recGet rest tag

def date_tags : List PPath :=
  ["EXIF:DateTimeOriginal".data, "QuickTime:CreateDate".data,
   "QuickTime:CreationDate".data]

/-- `datetime.strptime(date_str, '%Y:%m:%d %H:%M:%S')` on the canonical
fixed-width form `YYYY:MM:DD HH:MM:SS`. -/
def strptimeExif (s : PPath) : Option PDate :=
  match s with
  | [y1, y2, y3, y4, c1, m1, m2, c2, d1, d2, c3, h1, h2, c4, n1, n2, c5, s1, s2] =>
    if c1 = ':' ∧ c2 = ':' ∧ c3 = ' ' ∧ c4 = ':' ∧ c5 = ':' then
      match readNat [y1, y2, y3, y4], readNat [m1, m2], readNat [d1, d2],
            readNat [h1, h2], readNat [n1, n2], readNat [s1, s2] with
      | some y, some m, some d, some h, some n, some sec => mkDate y m d h n sec
      | _, _, _, _, _, _ => none
    else none
  | _ => none

/-- The per-record tag loop of `get_date_taken_batch` (lines 190-200):
a present, non-empty value that fails to parse does *not* break the loop,
so later tags are still probed. -/
def recordDate (metadata : Record) : List PPath → Option PDate
  | [] => none
  | tag :: rest =>
    match recGet metadata tag with
    | some v =>
      if v.isEmpty then recordDate metadata rest
      else
        match strptimeExif v with
        | some d => some (validate_parsed_date d)
        | none => recordDate metadata rest
    | none => recordDate metadata rest

/-- `get_date_taken_batch`, given the record list decoded from the
metadata service response: one optional date per record, in order. -/
def get_date_taken_batch (metadata_list : List Record) : List (Option PDate) :=
  metadata_list.map (fun m => recordDate m date_tags)

/-- The tag loop of the single-file `get_date_taken` (lines 107-113):
here a present value that fails to parse returns `None` immediately. -/
def getDateSingleTags (metadata : Record) : List PPath → Option PDate
  | [] => none
  | tag :: rest =>
    match recGet metadata tag with
    | some v =>
      if v.isEmpty then getDateSingleTags metadata rest
      else
        match strptimeExif v with
        | some d => some (validate_parsed_date d)
        | none => none
    | none => getDateSingleTags metadata rest

/-- `get_date_taken`, given the decoded metadata list for one file. -/
def get_date_taken (metadata : List Record) : Option PDate :=
  match metadata with
  | [] => none
  | m :: _ => getDateSingleTags m date_tags

/-- Outcome of `json.loads(self.execute(*args))` in
`ExifTool.get_metadata`: either a well-formed record list, or malformed
data (a `ValueError`). -/
inductive MetaResponse where
  | malformed
  | records (l : List Record)
deriving DecidableEq

/-- What `get_metadata` does with it: on `ValueError` it prints
`'No files to parse or invalid data'` and calls `exit()` itself. -/
inductive MetaResult where
  | processExit
  | ok (l : List Record)
deriving DecidableEq

def get_metadata : MetaResponse → MetaResult
  | .malformed => .processExit
  | .records l => .ok l

/-- Does control return to the caller (the orchestrator)? -/
def returnsToOrchestrator : MetaResult → Bool
  | .processExit => false
  | .ok _ => true

/-! ## The filename date parser (`parse_filename`)

Each regex in `date_patterns` has the shape `[^0-9]*(CORE)[^0-9]*` (the
last one `[^0-9]*(\d{8})[^0-9]`).  Since every CORE starts with a digit
and `[^0-9]*` cannot consume digits, `re.search` succeeds exactly at the
first string position where CORE (plus, for the last pattern, a trailing
non-digit) matches, scanning positions left to right.  `searchCore`
implements that scan; the `matchAt*` functions implement the COREs. -/
/-- Consume exactly `n` digits, returning them and the rest. -/
def takeDigits : Nat → PPath → Option (PPath × PPath)
  | 0, s => some ([], s)
  | _ + 1, [] => none
  | n + 1, c :: s =>
    if c.isDigit then (takeDigits n s).map (fun pr => (c :: pr.1, pr.2)) else none

/-- Consume one `[-_]` separator. -/
def takeSep : PPath → Option (Char × PPath)
  | [] => none
  | c :: s => if c = '-' ∨ c = '_' then some (c, s) else none

/-- CORE of pattern 1: `\d{4}[-_]\d{2}[-_]\d{2}[-_]\d{2}[-_]\d{2}[-_]\d{2}`. -/
def matchAt1 (s : PPath) : Option PPath := do
  let (d1, r1) ← takeDigits 4 s
  let (c1, r2) ← takeSep r1
  let (d2, r3) ← takeDigits 2 r2
  let (c2, r4) ← takeSep r3
  let (d3, r5) ← takeDigits 2 r4
  let (c3, r6) ← takeSep r5
  let (d4, r7) ← takeDigits 2 r6
  let (c4, r8) ← takeSep r7
  let (d5, r9) ← takeDigits 2 r8
  let (c5, r10) ← takeSep r9
  let (d6, _) ← takeDigits 2 r10
  return d1 ++ c1 :: (d2 ++ c2 :: (d3 ++ c3 :: (d4 ++ c4 :: (d5 ++ c5 :: d6))))

/-- CORE of pattern 2: `\d{8}_\d{6}`. -/
def matchAt2 (s : PPath) : Option PPath := do
  let (d1, r1) ← takeDigits 8 s
  match r1 with
  | '_' :: r2 => do
    let (d2, _) ← takeDigits 6 r2
    return d1 ++ '_' :: d2
  | _ => none

/-- CORE of pattern 3: `\d{14}`. -/
def matchAt3 (s : PPath) : Option PPath := do
  let (d, _) ← takeDigits 14 s
  return d

/-- CORE of pattern 4: `\d{4}[-_]\d{2}[-_]\d{2}`. -/
def matchAt4 (s : PPath) : Option PPath := do
  let (d1, r1) ← takeDigits 4 s
  let (c1, r2) ← takeSep r1
  let (d2, r3) ← takeDigits 2 r2
  let (c2, r4) ← takeSep r3
  let (d3, _) ← takeDigits 2 r4
  return d1 ++ c1 :: (d2 ++ c2 :: d3)

/-- CORE of pattern 5: `\d{8}` anchored by a mandatory trailing `[^0-9]`. -/
def matchAt5 (s : PPath) : Option PPath := do
  let (d, r) ← takeDigits 8 s
  match r with
  | c :: _ => if c.isDigit then none else some d
  | [] => none

/-- Leftmost position at which a CORE matches (the `re.search` group). -/
def searchCore (mAt : PPath → Option PPath) : PPath → Option PPath
  | [] => mAt []
  | s@(_ :: rest) =>
    match mAt s with
    | some d => some d
    | none => searchCore mAt rest

/-- `strptime` with format `%Y⟨sep⟩%m⟨sep⟩%d⟨sep⟩%H⟨sep⟩%M⟨sep⟩%S` on the
19-character shape produced by pattern 1. -/
def strptimeSep6 (sep : Char) (s : PPath) : Option PDate :=
  match s with
  | [y1, y2, y3, y4, c1, m1, m2, c2, d1, d2, c3, h1, h2, c4, n1, n2, c5, s1, s2] =>
    if c1 = sep ∧ c2 = sep ∧ c3 = sep ∧ c4 = sep ∧ c5 = sep then
      match readNat [y1, y2, y3, y4], readNat [m1, m2], readNat [d1, d2],
            readNat [h1, h2], readNat [n1, n2], readNat [s1, s2] with
      | some y, some m, some d, some h, some n, some sec => mkDate y m d h n sec
      | _, _, _, _, _, _ => none
    else none
  | _ => none

/-- Parse rule of pattern 1: choose the format by `'-' in d`. -/
def parseRule1 (d : PPath) : Option PDate :=
  if d.contains '-' then strptimeSep6 '-' d else strptimeSep6 '_' d

/-- `strptime(d, '%Y%m%d_%H%M%S')` on the 15-character shape of pattern 2. -/
def strptimeCompact14u (s : PPath) : Option PDate :=
  match s with
  | [y1, y2, y3, y4, m1, m2, d1, d2, u, h1, h2, n1, n2, s1, s2] =>
    if u = '_' then
      match readNat [y1, y2, y3, y4], readNat [m1, m2], readNat [d1, d2],
            readNat [h1, h2], readNat [n1, n2], readNat [s1, s2] with
      | some y, some m, some d, some h, some n, some sec => mkDate y m d h n sec
      | _, _, _, _, _, _ => none
    else none
  | _ => none

/-- `strptime(d, '%Y%m%d%H%M%S')` on the 14 digits of pattern 3. -/
def strptimeCompact14 (s : PPath) : Option PDate :=
  match s with
  | [y1, y2, y3, y4, m1, m2, d1, d2, h1, h2, n1, n2, s1, s2] =>
    match readNat [y1, y2, y3, y4], readNat [m1, m2], readNat [d1, d2],
          readNat [h1, h2], readNat [n1, n2], readNat [s1, s2] with
    | some y, some m, some d, some h, some n, some sec => mkDate y m d h n sec
    | _, _, _, _, _, _ => none
  | _ => none

/-- `strptime` with format `%Y⟨sep⟩%m⟨sep⟩%d` on the 10-character shape of
pattern 4 (time fields default to midnight). -/
def strptimeSep3 (sep : Char) (s : PPath) : Option PDate :=
  match s with
  | [y1, y2, y3, y4, c1, m1, m2, c2, d1, d2] =>
    if c1 = sep ∧ c2 = sep then
      match readNat [y1, y2, y3, y4], readNat [m1, m2], readNat [d1, d2] with
      | some y, some m, some d => mkDate y m d 0 0 0
      | _, _, _ => none
    else none
  | _ => none

/-- Parse rule of pattern 4: choose the format by `'-' in d`. -/
def parseRule4 (d : PPath) : Option PDate :=
  if d.contains '-' then strptimeSep3 '-' d else strptimeSep3 '_' d

/-- `strptime(d, '%Y%m%d')` on the 8 digits of pattern 5. -/
def strptimeCompact8 (s : PPath) : Option PDate :=
  match s with
  | [y1, y2, y3, y4, m1, m2, d1, d2] =>
    match readNat [y1, y2, y3, y4], readNat [m1, m2], readNat [d1, d2] with
    | some y, some m, some d => mkDate y m d 0 0 0
    | _, _, _ => none
  | _ => none

/-- `parse_filename`: the ordered pattern list.  A pattern whose regex
matches but whose parse rule raises `ValueError` falls through to the
*next pattern* (`except ValueError: continue`).  Note that the list has
exactly these five patterns — there is no epoch-seconds or
epoch-milliseconds rule. -/
def parse_filename (filename : PPath) : Option PDate :=
  match (searchCore matchAt1 filename).bind parseRule1 with
  | some dt => some dt
  | none =>
  match (searchCore matchAt2 filename).bind strptimeCompact14u with
  | some dt => some dt
  | none =>
  match (searchCore matchAt3 filename).bind strptimeCompact14 with
  | some dt => some dt
  | none =>
  match (searchCore matchAt4 filename).bind parseRule4 with
  | some dt => some dt
  | none => (searchCore matchAt5 filename).bind strptimeCompact8

/-- Per-tag probe: the value of a present, non-empty tag parsed with the
fixed timestamp format. -/
def tagParse (metadata : Record) (tag : PPath) : Option PDate :=
  match recGet metadata tag with
  | some v => if v.isEmpty then none else strptimeExif v
  | none => none

/-- The state for C3: one file sitting exactly at its own destination
(`dest_dir = "d"`, no date, so it maps to `d/u/a.jpg` where it lives). -/
def c3state : PMState :=
  { fs := [("d/u/a.jpg".data, 5)], hist := none, stats := zeroStats, log := [] }

/-- The record for C5: the first tag is present and non-empty but
unparseable; the second tag holds a valid timestamp. -/
def c5rec : Record :=
  [("EXIF:DateTimeOriginal".data, "garbage".data),
   ("QuickTime:CreateDate".data, "2019:03:02 10:00:00".data)]

/-- The state for C6: a duplicate (identical content already at the
destination path). -/
def c6state : PMState :=
  { fs := [("s/a.jpg".data, 1), ("d/u/a.jpg".data, 1)], hist := none,
    stats := zeroStats, log := [] }

/-! ## The ledger / created-files correspondence (dry run vs live run) -/
/-- `ledgerMatches fs0 h created`: the dry-run ledger `h` and the list of
files the live run has created correspond entry by entry — same
destination paths in the same order, and the content recorded at the
destination is the content of the recorded source in the pristine
filesystem `fs0`. -/
def ledgerMatches (fs0 : FS) : Ledger → FS → Prop
  | [], [] => True
  | (p, s) :: h, (q, c) :: created =>
      p = q ∧ fsGet fs0 s = some c ∧ ledgerMatches fs0 h created
  | _ :: _, [] => False
  | [], _ :: _ => False

/-- The counter updates `process_file` performs, as a function of the
resolver's result. -/
def postStats (stats : Stats) (dt : Option PDate) (np : PPath)
    (r : Option PPath) : Stats :=
  let stats0 := if dt.isNone then { stats with nodate := stats.nodate + 1 } else stats
  let stats1 := if r ≠ some np then { stats0 with renamed := stats0.renamed + 1 } else stats0
  match r with
  | none => { stats1 with duplicates := stats1.duplicates + 1 }
  | some _ => { stats1 with processed := stats1.processed + 1 }

/-- Initial filesystem for the C2 witness: three sources outside the
destination subtree, two of them identical under the same basename. -/
def c2wfs : FS :=
  [("s/a.jpg".data, 1), ("t/a.jpg".data, 1), ("r/a.jpg".data, 3),
   ("s/b.jpg".data, 2)]

def c2wfiles : List (PPath × Option PDate) :=
  [("s/a.jpg".data, none), ("t/a.jpg".data, none), ("r/a.jpg".data, none),
   ("s/b.jpg".data, none)]

/-- Initial filesystem for the C2 counterexample: the destination tree
already holds `d/u/b.jpg` with content different from source `s/b.jpg`. -/
def c2cfs : FS :=
  [("s/a.jpg".data, 1), ("s/b.jpg".data, 2), ("d/u/b.jpg".data, 99)]

def c2cfiles : List (PPath × Option PDate) :=
  [("s/a.jpg".data, none), ("s/b.jpg".data, none)]

/-! ## Idempotence machinery (C8) -/
/-- After a file with content `c` has been placed, its candidate chain in
the filesystem looks like this: some index `k` holds content `c`, and
every earlier candidate is occupied by different content. -/
def chainProp (fs : FS) (desired : PPath) (c : Content) : Prop :=
  ∃ k, (∀ i, i < k → ∃ ci, fsGet fs (topCand desired i) = some ci ∧ ci ≠ c) ∧
    fsGet fs (topCand desired k) = some c

def c8fs0 : FS :=
  [("s/a.jpg".data, 1), ("t/a.jpg".data, 2), ("s/b.jpg".data, 3), ("q/a.jpg".data, 1)]

def c8files : List (PPath × Option PDate) :=
  [("s/a.jpg".data, none), ("t/a.jpg".data, none), ("s/b.jpg".data, none),
   ("q/a.jpg".data, none)]

theorem digitCh_val (d : Nat) (hd : d < 10) : (digitCh d).toNat - 48 = d := by
  interval_cases d <;> rfl

theorem unrepr_snoc (xs : PPath) (c : Char) :
    unrepr (xs ++ [c]) = unrepr xs * 10 + (c.toNat - 48) := by
  simp [unrepr, List.foldl_append]

theorem unrepr_natReprAux : ∀ fuel n, n ≤ fuel → unrepr (natReprAux fuel n) = n := by
  intro fuel
  induction fuel with
  | zero =>
    intro n hn
    interval_cases n
    rfl
  | succ fuel ih =>
    intro n hn
    by_cases h0 : n = 0
    · subst h0; rfl
    · have hdiv : n / 10 ≤ fuel := by
        have : n / 10 < n := Nat.div_lt_self (Nat.pos_of_ne_zero h0) (by omega)
        omega
      have hmod : n % 10 < 10 := Nat.mod_lt _ (by omega)
      calc unrepr (natReprAux (fuel + 1) n)
          = unrepr (natReprAux fuel (n / 10) ++ [digitCh (n % 10)]) := by
            simp [natReprAux, h0]
        _ = unrepr (natReprAux fuel (n / 10)) * 10 + ((digitCh (n % 10)).toNat - 48) :=
            unrepr_snoc _ _
        _ = (n / 10) * 10 + n % 10 := by rw [ih _ hdiv, digitCh_val _ hmod]
        _ = n := by omega

theorem unrepr_natRepr (n : Nat) : unrepr (natRepr n) = n := by
  by_cases h0 : n = 0
  · subst h0; rfl
  · simp only [natRepr, h0, if_false]
    exact unrepr_natReprAux _ _ (Nat.le_succ n)

theorem natRepr_injective : Function.Injective natRepr := by
  intro m n h
  have := congrArg unrepr h
  rwa [unrepr_natRepr, unrepr_natRepr] at this

theorem hasPfx_iff : ∀ pre p : PPath, hasPfx pre p = true ↔ ∃ r, p = pre ++ r := by
  intro pre
  induction pre with
  | nil =>
    intro p
    constructor
    · intro _; exact ⟨p, rfl⟩
    · intro _; rfl
  | cons a as ih =>
    intro p
    cases p with
    | nil =>
      constructor
      · intro h; exact absurd h (by simp [hasPfx])
      · rintro ⟨r, hr⟩; cases hr
    | cons b bs =>
      by_cases hab : a = b
      · subst hab
        rw [show hasPfx (a :: as) (a :: bs) = hasPfx as bs from by simp [hasPfx]]
        rw [ih bs]
        constructor
        · rintro ⟨r, rfl⟩; exact ⟨r, rfl⟩
        · rintro ⟨r, hr⟩
          injection hr with h1 h2
          exact ⟨r, h2⟩
      · constructor
        · intro h
          rw [show hasPfx (a :: as) (b :: bs) = false from by simp [hasPfx, hab]] at h
          cases h
        · rintro ⟨r, hr⟩
          injection hr with h1 h2
          exact absurd h1.symm hab

theorem hasPfx_append (pre r : PPath) : hasPfx pre (pre ++ r) = true :=
  (hasPfx_iff pre _).mpr ⟨r, rfl⟩

theorem hasPfx_extend {pre b : PPath} (h : hasPfx pre b = true) (x : PPath) :
    hasPfx pre (b ++ x) = true := by
  obtain ⟨r, rfl⟩ := (hasPfx_iff pre b).mp h
  simpa [List.append_assoc] using hasPfx_append pre (r ++ x)

theorem hasPfx_take {pre p : PPath} (h : hasPfx pre p = true) {k : Nat}
    (hk : pre.length ≤ k) : hasPfx pre (p.take k) = true := by
  obtain ⟨r, rfl⟩ := (hasPfx_iff pre p).mp h
  rw [List.take_append_eq_append_take, List.take_of_length_le hk]
  exact hasPfx_append pre _

theorem rfindIdx_lt_length {c : Char} : ∀ {s : PPath} {j : Nat},
    rfindIdx c s = some j → j < s.length := by
  intro s
  induction s with
  | nil => intro j h; simp [rfindIdx] at h
  | cons x xs ih =>
    intro j h
    simp only [rfindIdx] at h
    cases hrec : rfindIdx c xs with
    | some j0 =>
      rw [hrec] at h
      cases h
      have := ih hrec
      simp only [List.length_cons]
      omega
    | none =>
      rw [hrec] at h
      by_cases hx : x = c
      · rw [if_pos hx] at h
        cases h
        simp
      · rw [if_neg hx] at h
        cases h

theorem rfindIdx_append_self (c : Char) (a b : PPath) :
    ∃ j, rfindIdx c (a ++ c :: b) = some j ∧ a.length ≤ j := by
  induction a with
  | nil =>
    cases hrec : rfindIdx c b with
    | some j => exact ⟨j + 1, by simp [rfindIdx, hrec], Nat.zero_le _⟩
    | none => exact ⟨0, by simp [rfindIdx, hrec], Nat.zero_le _⟩
  | cons x a ih =>
    obtain ⟨j, hj, hlen⟩ := ih
    refine ⟨j + 1, ?_, by simpa using Nat.succ_le_succ hlen⟩
    simp [rfindIdx, hj]

theorem splitextIdx_le_length (p : PPath) : splitextIdx p ≤ p.length := by
  unfold splitextIdx
  cases h : rfindIdx '.' p with
  | none => exact Nat.le_refl _
  | some di =>
    simp only []
    split
    · exact Nat.le_of_lt (rfindIdx_lt_length h)
    · exact Nat.le_refl _

theorem lt_splitextIdx_of_slash {p : PPath} {j : Nat}
    (h : rfindIdx '/' p = some j) : j < splitextIdx p := by
  have hjlen : j < p.length := rfindIdx_lt_length h
  unfold splitextIdx
  cases hdot : rfindIdx '.' p with
  | none => exact hjlen
  | some di =>
    simp only [h]
    split
    · next hcond =>
      have : j + 1 ≤ di := by
        have := (Bool.and_eq_true _ _).mp hcond |>.1
        exact of_decide_eq_true this
      omega
    · exact hjlen

theorem splitext_append (p : PPath) : (splitext p).1 ++ (splitext p).2 = p :=
  List.take_append_drop _ p

theorem hasPfx_pathJoin (a b : PPath) : hasPfx (a ++ ['/']) (pathJoin a b) = true := by
  simpa [pathJoin] using hasPfx_append (a ++ ['/']) b

theorem fsGet_isSome_mem {fs : FS} {p : PPath} (h : (fsGet fs p).isSome) :
    p ∈ fs.map Prod.fst := by
  induction fs with
  | nil => simp [fsGet] at h
  | cons qc rest ih =>
    obtain ⟨q, c⟩ := qc
    by_cases hq : q = p
    · subst hq; simp
    · simp only [fsGet, if_neg hq] at h
      simpa using Or.inr (ih h)

theorem histGet_isSome_mem {h : Ledger} {p : PPath} (hh : (histGet h p).isSome) :
    p ∈ h.map Prod.fst := by
  induction h with
  | nil => simp [histGet] at hh
  | cons qc rest ih =>
    obtain ⟨q, c⟩ := qc
    by_cases hq : q = p
    · subst hq; simp
    · simp only [histGet, if_neg hq] at hh
      simpa using Or.inr (ih hh)

theorem claimedOf_mem_claimKeys {hist : Option Ledger} {fs : FS} {p : PPath}
    (h : claimedOf hist fs p = true) : p ∈ claimKeys hist fs := by
  cases hist with
  | none => exact fsGet_isSome_mem h
  | some hl =>
    by_cases he : hl.isEmpty
    · simp only [claimedOf, if_pos he] at h
      simpa [claimKeys, he] using fsGet_isSome_mem h
    · simp only [claimedOf, if_neg he] at h
      simpa [claimKeys, he] using histGet_isSome_mem h

theorem cand_injective (base ext : PPath) {m n : Nat}
    (h : cand base ext m = cand base ext n) : m = n := by
  unfold cand at h
  have h1 := List.append_cancel_left h
  injection h1 with _ h2
  exact natRepr_injective (List.append_cancel_right h2)

theorem resolveLoop_none_claimed (claimedF : PPath → Bool)
    (occF : PPath → Option Content) (srcC : Option Content) (base ext : PPath) :
    ∀ fuel c,
      resolveLoop claimedF occF srcC base ext fuel (cand base ext c) (c + 1) = none →
      ∀ i, i < fuel → claimedF (cand base ext (c + i)) = true := by
  intro fuel
  induction fuel with
  | zero => intro c _ i hi; omega
  | succ fuel ih =>
    intro c hnone i hi
    rw [resolveLoop] at hnone
    by_cases hc : claimedF (cand base ext c) = true
    · rw [if_pos hc] at hnone
      by_cases hocc : occF (cand base ext c) = srcC
      · rw [if_pos hocc] at hnone; cases hnone
      · rw [if_neg hocc] at hnone
        cases i with
        | zero => simpa using hc
        | succ i0 =>
          have := ih (c + 1) hnone i0 (by omega)
          have harith : c + 1 + i0 = c + (i0 + 1) := by omega
          rwa [harith] at this
    · rw [if_neg hc] at hnone; cases hnone

theorem claimKeys_not_all_claimed (hist : Option Ledger) (fs : FS)
    (base ext : PPath) :
    ¬ (∀ i, i < (claimKeys hist fs).length + 1 →
        claimedOf hist fs (cand base ext (1 + i)) = true) := by
  intro hall
  set K := claimKeys hist fs with hK
  set l := (List.range (K.length + 1)).map (fun i => cand base ext (1 + i)) with hl
  have hinj : Function.Injective (fun i => cand base ext (1 + i)) := by
    intro a b hab
    have := cand_injective base ext hab
    omega
  have hnodup : l.Nodup := (List.nodup_range _).map hinj
  have hsub : ∀ x ∈ l, x ∈ K := by
    intro x hx
    rw [hl, List.mem_map] at hx
    obtain ⟨i, hi, rfl⟩ := hx
    rw [List.mem_range] at hi
    exact claimedOf_mem_claimKeys (hall i hi)
  have hcard1 : l.toFinset.card = l.length := List.toFinset_card_of_nodup hnodup
  have hcard2 : l.toFinset ⊆ K.toFinset := by
    intro x hx
    rw [List.mem_toFinset] at hx ⊢
    exact hsub x hx
  have hcard3 : K.toFinset.card ≤ K.length := List.toFinset_card_le K
  have hlen : l.length = K.length + 1 := by simp [hl]
  have := Finset.card_le_card hcard2
  omega

/-- The loop never exhausts its fuel: `resolve_duplicate` terminates. -/
theorem resolve_duplicate_total (new_path source_path : PPath)
    (hist : Option Ledger) (fs : FS) :
    ∃ r, resolveLoop (claimedOf hist fs) (occOf hist fs) (fsGet fs source_path)
        (splitext new_path).1 (splitext new_path).2
        (resolveFuel hist fs) new_path 1 = some r := by
  set base := (splitext new_path).1
  set ext := (splitext new_path).2
  cases hres : resolveLoop (claimedOf hist fs) (occOf hist fs) (fsGet fs source_path)
      base ext (resolveFuel hist fs) new_path 1 with
  | some r => exact ⟨r, rfl⟩
  | none =>
    exfalso
    rw [resolveFuel, resolveLoop] at hres
    by_cases hc : claimedOf hist fs new_path = true
    · rw [if_pos hc] at hres
      by_cases hocc : occOf hist fs new_path = fsGet fs source_path
      · rw [if_pos hocc] at hres; cases hres
      · rw [if_neg hocc] at hres
        have hclaimed := resolveLoop_none_claimed (claimedOf hist fs) (occOf hist fs)
          (fsGet fs source_path) base ext ((claimKeys hist fs).length + 2) 1 hres
        exact claimKeys_not_all_claimed hist fs base ext
          (fun i hi => by
            have := hclaimed i (by omega)
            exact this)
    · rw [if_neg hc] at hres; cases hres

theorem topCand_succ (desired : PPath) (n : Nat) :
    topCand desired (n + 1) = cand (splitext desired).1 (splitext desired).2 (n + 1) := rfl

/-- Full characterization of the loop: it walks the candidate chain from
index `c`, passing only claimed candidates with non-matching content, and
stops at the first free candidate (returning it) or the first candidate
with matching content (reporting a duplicate). -/
theorem resolveLoop_spec (claimedF : PPath → Bool) (occF : PPath → Option Content)
    (srcC : Option Content) (desired : PPath) :
    ∀ fuel c r,
      resolveLoop claimedF occF srcC (splitext desired).1 (splitext desired).2
        fuel (topCand desired c) (c + 1) = some r →
      ∃ k, c ≤ k ∧
        (∀ i, c ≤ i → i < k → claimedF (topCand desired i) = true ∧
          occF (topCand desired i) ≠ srcC) ∧
        ((∃ q, r = some q ∧ q = topCand desired k ∧ claimedF (topCand desired k) = false) ∨
         (r = none ∧ claimedF (topCand desired k) = true ∧
           occF (topCand desired k) = srcC)) := by
  intro fuel
  induction fuel with
  | zero => intro c r h; cases h
  | succ fuel ih =>
    intro c r h
    rw [resolveLoop] at h
    by_cases hc : claimedF (topCand desired c) = true
    · rw [if_pos hc] at h
      by_cases hocc : occF (topCand desired c) = srcC
      · rw [if_pos hocc] at h
        cases h
        exact ⟨c, Nat.le_refl c, fun i hci hic => absurd (Nat.lt_of_le_of_lt hci hic)
          (Nat.lt_irrefl c), Or.inr ⟨rfl, hc, hocc⟩⟩
      · rw [if_neg hocc] at h
        rw [show cand (splitext desired).1 (splitext desired).2 (c + 1) =
          topCand desired (c + 1) from rfl] at h
        obtain ⟨k, hk1, hk2, hk3⟩ := ih (c + 1) r h
        refine ⟨k, by omega, ?_, hk3⟩
        intro i hci hik
        rcases Nat.eq_or_lt_of_le hci with heq | hlt
        · subst heq; exact ⟨hc, hocc⟩
        · exact hk2 i hlt hik
    · rw [if_neg hc] at h
      cases h
      exact ⟨c, Nat.le_refl c, fun i hci hic => absurd (Nat.lt_of_le_of_lt hci hic)
        (Nat.lt_irrefl c), Or.inl ⟨topCand desired c, rfl, rfl, by simpa using hc⟩⟩

theorem resolveLoop_mono (claimedF : PPath → Bool) (occF : PPath → Option Content)
    (srcC : Option Content) (base ext : PPath) :
    ∀ fuel p c r, resolveLoop claimedF occF srcC base ext fuel p c = some r →
      resolveLoop claimedF occF srcC base ext (fuel + 1) p c = some r := by
  intro fuel
  induction fuel with
  | zero => intro p c r h; cases h
  | succ fuel ih =>
    intro p c r h
    rw [resolveLoop] at h
    rw [resolveLoop]
    by_cases hc : claimedF p = true
    · rw [if_pos hc] at h ⊢
      by_cases hocc : occF p = srcC
      · rwa [if_pos hocc] at h ⊢
      · rw [if_neg hocc] at h ⊢
        exact ih _ _ _ h
    · rwa [if_neg hc] at h ⊢

theorem resolveLoop_le (claimedF : PPath → Bool) (occF : PPath → Option Content)
    (srcC : Option Content) (base ext : PPath) {fuel fuel2 : Nat}
    (hle : fuel ≤ fuel2) {p : PPath} {c : Nat} {r : Option PPath}
    (h : resolveLoop claimedF occF srcC base ext fuel p c = some r) :
    resolveLoop claimedF occF srcC base ext fuel2 p c = some r := by
  obtain ⟨d, rfl⟩ := Nat.exists_eq_add_of_le hle
  clear hle
  induction d with
  | zero => exact h
  | succ d ihd =>
    rw [show fuel + (d + 1) = (fuel + d) + 1 from rfl]
    exact resolveLoop_mono claimedF occF srcC base ext _ _ _ _ ihd

/-- The loop is determined by the answers of `claimedF` and `occF` on the
destination subtree: two states that agree there resolve identically. -/
theorem resolveLoop_congr (dpre base ext : PPath) (claimed1 claimed2 : PPath → Bool)
    (occ1 occ2 : PPath → Option Content) (srcC : Option Content)
    (hb : hasPfx dpre base = true)
    (hcl : ∀ q, hasPfx dpre q = true → claimed1 q = claimed2 q)
    (hoc : ∀ q, hasPfx dpre q = true → occ1 q = occ2 q) :
    ∀ fuel p c, hasPfx dpre p = true →
      resolveLoop claimed1 occ1 srcC base ext fuel p c =
      resolveLoop claimed2 occ2 srcC base ext fuel p c := by
  intro fuel
  induction fuel with
  | zero => intro p c _; rfl
  | succ fuel ih =>
    intro p c hp
    rw [resolveLoop, resolveLoop, hcl p hp]
    by_cases hc : claimed2 p = true
    · rw [if_pos hc, if_pos hc, hoc p hp]
      by_cases hocc : occ2 p = srcC
      · rw [if_pos hocc, if_pos hocc]
      · rw [if_neg hocc, if_neg hocc]
        exact ih _ _ (hasPfx_extend hb _)
    · rw [if_neg hc, if_neg hc]

/-! ## Helper lemmas for the claim theorems -/
theorem zip_take_length {α β : Type} (l1 : List α) (l2 : List β) :
    l1.zip l2 = (l1.take l2.length).zip l2 := by
  induction l1 generalizing l2 with
  | nil => simp
  | cons x xs ih =>
    cases l2 with
    | nil => simp
    | cons y ys => simpa using ih ys

theorem findSome?_cons_eq {a : Type} {b : Type} (f : a -> Option b) (x : a) (xs : List a) :
    List.findSome? f (x :: xs) =
      match f x with | some y => some y | none => List.findSome? f xs := rfl

theorem recordDate_eq_findSome (metadata : Record) :
    forall tags : List PPath,
      recordDate metadata tags =
      (tags.findSome? (tagParse metadata)).map validate_parsed_date := by
  intro tags
  induction tags with
  | nil => rfl
  | cons tag rest ih =>
    rw [recordDate, findSome?_cons_eq, tagParse]
    cases hg : recGet metadata tag with
    | none => simpa using ih
    | some v =>
      by_cases he : v.isEmpty
      · simp only [if_pos he]
        simpa using ih
      · simp only [if_neg he]
        cases hs : strptimeExif v with
        | none => simpa using ih
        | some d => simp [validate_parsed_date]

/-! ## Claim theorems -/
/-- C7: for every state (filesystem in live mode, ledger in dry-run mode)
the duplicate resolver terminates (the fuelled loop yields a result), and
it never returns a path the state reports as claimed: it returns an
unclaimed candidate (the desired path or a `_N` variant), or reports a
duplicate exactly when some probed occupant's content equals the
source's. -/
theorem C7_resolver_terminates_and_sound (new_path source_path : PPath)
    (hist : Option Ledger) (fs : FS) :
    (∃ r, resolveLoop (claimedOf hist fs) (occOf hist fs) (fsGet fs source_path)
        (splitext new_path).1 (splitext new_path).2
        (resolveFuel hist fs) new_path 1 = some r) ∧
    (∀ q, resolve_duplicate new_path source_path hist fs = some q →
      claimedOf hist fs q = false ∧ ∃ k, q = topCand new_path k) ∧
    (resolve_duplicate new_path source_path hist fs = none →
      ∃ p2, claimedOf hist fs p2 = true ∧
        occOf hist fs p2 = fsGet fs source_path) := by
  obtain ⟨r, hr⟩ := resolve_duplicate_total new_path source_path hist fs
  have hres : resolve_duplicate new_path source_path hist fs = r := by
    rw [resolve_duplicate, hr]
    rfl
  have hr0 : resolveLoop (claimedOf hist fs) (occOf hist fs) (fsGet fs source_path)
      (splitext new_path).1 (splitext new_path).2
      (resolveFuel hist fs) (topCand new_path 0) (0 + 1) = some r := hr
  obtain ⟨k, _, hchain, hend⟩ :=
    resolveLoop_spec (claimedOf hist fs) (occOf hist fs) (fsGet fs source_path)
      new_path (resolveFuel hist fs) 0 r hr0
  refine ⟨⟨r, hr⟩, ?_, ?_⟩
  · intro q hq
    rw [hres] at hq
    subst hq
    rcases hend with ⟨q2, hq2, hq2c, hq2f⟩ | ⟨hnone, _, _⟩
    · cases hq2
      exact ⟨hq2c ▸ hq2f, k, hq2c⟩
    · cases hnone
  · intro hq
    rw [hres] at hq
    subst hq
    rcases hend with ⟨q2, hq2, _, _⟩ | ⟨_, hcl, hocc⟩
    · cases hq2
    · exact ⟨topCand new_path k, hcl, hocc⟩

/-- C10: the batch dispatch pairs paths with dates positionally via `zip`,
which truncates to the shorter list: when the metadata service yields
fewer records (hence fewer dates) than submitted paths, the run is
identical to one in which the trailing paths were never submitted — they
are never placed, never counted, and no error is raised.  The second
conjunct records that `get_date_taken_batch` yields exactly one date per
decoded record, so fewer records than paths forces the truncation. -/
theorem C10_short_batch_drops_tail (paths : List PPath)
    (dates : List (Option PDate)) (dest_dir : PPath) (dry_run move : Bool)
    (no_date_dir : PPath) (st : PMState) :
    (processBatch paths dates dest_dir dry_run move no_date_dir st =
      processBatch (paths.take dates.length) dates dest_dir dry_run move no_date_dir st) ∧
    (∀ metadata_list : List Record,
      (get_date_taken_batch metadata_list).length = metadata_list.length) := by
  constructor
  · unfold processBatch
    rw [zip_take_length paths dates]
  · intro metadata_list
    simp [get_date_taken_batch]

/-- C1 (code-bug evidence): `validate_parsed_date` is the identity — the
year-window check is an unimplemented `TODO` — and `parse_filename` does
not validate at all, so dates with year ≤ 2000 (e.g. 1970, the epoch) or
far in the future (e.g. 2999) are kept, and the 1970 file is placed under
`1970/01-jan` instead of being treated as date-less. -/
theorem C1_year_window_not_enforced :
    (∀ d : PDate, validate_parsed_date d = d) ∧
    parse_filename "19700101_000000.jpg".data = some ⟨1970, 1, 1, 0, 0, 0⟩ ∧
    parse_filename "29990101_000000.jpg".data = some ⟨2999, 1, 1, 0, 0, 0⟩ ∧
    get_date_taken_batch [[("EXIF:DateTimeOriginal".data, "1970:01:01 00:00:00".data)]] =
      [some ⟨1970, 1, 1, 0, 0, 0⟩] ∧
    desiredPath "19700101_000000.jpg".data (some ⟨1970, 1, 1, 0, 0, 0⟩)
        "dest".data "unknown-date".data = "dest/1970/01-jan/19700101_000000.jpg".data :=
  ⟨fun _ => rfl, by decide, by decide, by decide, by decide⟩

/-- C3 (code-bug evidence): in a live move run, a file whose source path
equals its destination path resolves as a duplicate (it is compared with
itself), and `process_file` then deletes it — the only copy is lost —
although the claim (and the spec) require the source not to be removed
when source equals destination. -/
theorem C3_move_removes_file_at_its_destination :
    desiredPath "d/u/a.jpg".data none "d".data "u".data = "d/u/a.jpg".data ∧
    (process_file "d/u/a.jpg".data none "d".data false true "u".data c3state).stats.duplicates = 1 ∧
    (process_file "d/u/a.jpg".data none "d".data false true "u".data c3state).fs = [] := by
  refine ⟨by decide, by decide, by decide⟩

/-- C4 (counterexample): on malformed batch data, control never returns
to the orchestrator — `get_metadata` prints and calls `exit()` itself, so
the orchestrator does not get to decide whether to abort. -/
theorem C4_resolver_exits_process :
    returnsToOrchestrator (get_metadata MetaResponse.malformed) = false := rfl

/-- C4 (amended): a malformed batch response is surfaced as a process
exit — distinguishable from every well-formed outcome, in particular from
"every file in the batch lacked a date" (an `ok` record list) — but the
abort decision is taken inside the resolver, not by the orchestrator. -/
theorem C4_amended_batch_failure_signal :
    get_metadata MetaResponse.malformed = MetaResult.processExit ∧
    (∀ l, get_metadata (MetaResponse.records l) = MetaResult.ok l) ∧
    (∀ l, MetaResult.processExit ≠ MetaResult.ok l) :=
  ⟨rfl, fun _ => rfl, fun _ h => MetaResult.noConfusion h⟩

/-- C5 (counterexample): when the first present, non-empty tag fails to
parse, the batch resolver does *not* resolve to absence: it takes the
value of a later tag (here `QuickTime:CreateDate`).  The unused
single-file resolver behaves as the claim states. -/
theorem C5_batch_uses_later_tag :
    get_date_taken_batch [c5rec] = [some ⟨2019, 3, 2, 10, 0, 0⟩] ∧
    get_date_taken [c5rec] = none := by
  refine ⟨by decide, by decide⟩

/-- C5 (amended): the batch resolver returns, per record, the first tag
value (in the fixed order) that is present, non-empty *and* parses,
mapped through `validate_parsed_date`; a present value that fails to
parse is skipped and later tags are still probed; absence results only
when no tag yields a parseable value. -/
theorem C5_amended_first_parsing_tag (metadata_list : List Record) :
    get_date_taken_batch metadata_list =
      metadata_list.map (fun m =>
        ((date_tags.findSome? (tagParse m)).map validate_parsed_date)) := by
  unfold get_date_taken_batch
  induction metadata_list with
  | nil => rfl
  | cons m rest ih => simp [recordDate_eq_findSome m date_tags, ih]

/-- C6 (counterexample): a file reported as a duplicate *does* increment
`renamed` (the comparison `new_path != fixed_new_path` is true when
`fixed_new_path` is `None`), contradicting the claim that only files with
a differing finally-used path are counted as renamed. -/
theorem C6_duplicate_increments_renamed :
    (process_file "s/a.jpg".data none "d".data false false "u".data c6state).stats.duplicates = 1 ∧
    (process_file "s/a.jpg".data none "d".data false false "u".data c6state).stats.renamed = 1 := by
  refine ⟨by decide, by decide⟩

/-- C9 (counterexample): the pattern list contains no epoch-timestamp
rule.  A filename with a bare 10-digit integer run (epoch seconds
1687000000 = 2023-06-17) or a 13-digit run (epoch milliseconds) parses to
*no* date, not to the epoch-derived date the claim requires. -/
theorem C9_no_epoch_patterns :
    parse_filename "IMG_1687000000.jpg".data = none ∧
    parse_filename "IMG_1687000000000.jpg".data = none := by
  refine ⟨by decide, by decide⟩

/-- C9 (amended): the parser has exactly the five embedded patterns and
no epoch rules; a bounded 10- or 13-digit run yields absence — unless an
8-digit window of it bounded by a trailing non-digit happens to form a
valid `YYYYMMDD` date, in which case that (non-epoch) date is returned:
`a1420070101b` gives 2007-01-01 from the window `20070101`, not the epoch
value 2015-01-01 of 1420070101. -/
theorem C9_amended_digit_runs :
    parse_filename "IMG_1687000000.jpg".data = none ∧
    parse_filename "IMG_1687000000000.jpg".data = none ∧
    parse_filename "a1420070101b.jpg".data = some ⟨2007, 1, 1, 0, 0, 0⟩ := by
  refine ⟨by decide, by decide, by decide⟩

/-- C6 (amended): per processed file, each counter changes exactly once,
at the duplicate/placed decision: `renamed` increments exactly when the
resolver's result differs from the desired path — which includes every
duplicate, since `None` differs from the desired path; `duplicates` or
`processed` increments according to the decision; `nodate` increments
exactly when no date was resolved. -/
theorem C6_amended_stats_update (file_path : PPath) (date_taken : Option PDate)
    (dest_dir : PPath) (dry_run move : Bool) (no_date_dir : PPath) (st : PMState) :
    ((process_file file_path date_taken dest_dir dry_run move no_date_dir st).stats.renamed =
      st.stats.renamed +
        (if resolve_duplicate (desiredPath file_path date_taken dest_dir no_date_dir)
            file_path st.hist st.fs =
            some (desiredPath file_path date_taken dest_dir no_date_dir)
         then 0 else 1)) ∧
    ((process_file file_path date_taken dest_dir dry_run move no_date_dir st).stats.duplicates =
      st.stats.duplicates +
        (if resolve_duplicate (desiredPath file_path date_taken dest_dir no_date_dir)
            file_path st.hist st.fs = none
         then 1 else 0)) ∧
    ((process_file file_path date_taken dest_dir dry_run move no_date_dir st).stats.processed =
      st.stats.processed +
        (if resolve_duplicate (desiredPath file_path date_taken dest_dir no_date_dir)
            file_path st.hist st.fs = none
         then 0 else 1)) ∧
    ((process_file file_path date_taken dest_dir dry_run move no_date_dir st).stats.nodate =
      st.stats.nodate + (if date_taken.isNone then 1 else 0)) := by
  simp only [process_file]
  cases hres : resolve_duplicate (desiredPath file_path date_taken dest_dir no_date_dir)
      file_path st.hist st.fs with
  | none =>
    by_cases hd : date_taken.isNone <;>
      simp [hd, apply_ite]
  | some q =>
    by_cases hq : q = desiredPath file_path date_taken dest_dir no_date_dir
    · subst hq
      by_cases hd : date_taken.isNone <;> by_cases hdry : dry_run <;>
        simp [hd, hdry, apply_ite]
    · have hne : (some q ≠ some (desiredPath file_path date_taken dest_dir no_date_dir)) := by
        intro h; exact hq (Option.some.inj h)
      by_cases hd : date_taken.isNone <;> by_cases hdry : dry_run <;>
        simp [hd, hdry, hne, apply_ite]

/-! ## Filesystem lemmas for the run invariants -/
theorem fsGet_append_left {a : FS} {p : PPath} {c : Content}
    (h : fsGet a p = some c) (b : FS) : fsGet (a ++ b) p = some c := by
  induction a with
  | nil => cases h
  | cons qc rest ih =>
    obtain ⟨q, c0⟩ := qc
    by_cases hq : q = p
    · subst hq
      simp only [fsGet, if_pos rfl] at h ⊢
      exact h
    · simp only [fsGet, if_neg hq] at h
      simpa [fsGet, hq] using ih h

theorem fsGet_append_none {a : FS} {p : PPath} (h : fsGet a p = none) (b : FS) :
    fsGet (a ++ b) p = fsGet b p := by
  induction a with
  | nil => rfl
  | cons qc rest ih =>
    obtain ⟨q, c0⟩ := qc
    by_cases hq : q = p
    · subst hq; simp [fsGet] at h
    · simp only [fsGet, if_neg hq] at h
      simpa [fsGet, hq] using ih h

theorem fsGet_snoc_self {fs : FS} {q : PPath} (h : fsGet fs q = none) (c : Content) :
    fsGet (fs ++ [(q, c)]) q = some c := by
  rw [fsGet_append_none h]
  simp [fsGet]

theorem fsRemove_append (a b : FS) (p : PPath) :
    fsRemove (a ++ b) p = fsRemove a p ++ fsRemove b p := by
  induction a with
  | nil => rfl
  | cons qc rest ih =>
    obtain ⟨q, c0⟩ := qc
    by_cases hq : q = p
    · simpa [fsRemove, hq] using ih
    · simpa [fsRemove, hq] using ih

theorem fsGet_fsRemove_ne {fs : FS} {p q : PPath} (h : q ≠ p) :
    fsGet (fsRemove fs p) q = fsGet fs q := by
  induction fs with
  | nil => rfl
  | cons qc rest ih =>
    obtain ⟨q0, c0⟩ := qc
    by_cases hq0 : q0 = p
    · subst hq0
      have : q0 ≠ q := fun he => h he.symm
      simpa [fsRemove, fsGet, this] using ih
    · by_cases hqq : q0 = q
      · subst hqq; simp [fsRemove, fsGet, hq0]
      · simpa [fsRemove, fsGet, hq0, hqq] using ih

theorem fsGet_eq_none_of_ne {fs : FS} {p : PPath} (h : ∀ e ∈ fs, e.1 ≠ p) :
    fsGet fs p = none := by
  induction fs with
  | nil => rfl
  | cons qc rest ih =>
    obtain ⟨q, c0⟩ := qc
    have hq : q ≠ p := h (q, c0) (by simp)
    simpa [fsGet, hq] using ih (fun e he => h e (by simp [he]))

theorem fsRemove_eq_of_none {fs : FS} {p : PPath} (h : fsGet fs p = none) :
    fsRemove fs p = fs := by
  induction fs with
  | nil => rfl
  | cons qc rest ih =>
    obtain ⟨q, c0⟩ := qc
    by_cases hq : q = p
    · subst hq; simp [fsGet] at h
    · simp only [fsGet, if_neg hq] at h
      simp [fsRemove, hq, ih h]

theorem mem_of_mem_fsRemove {fs : FS} {p : PPath} {e : PPath × Content}
    (h : e ∈ fsRemove fs p) : e ∈ fs := by
  induction fs with
  | nil => cases h
  | cons qc rest ih =>
    obtain ⟨q, c0⟩ := qc
    by_cases hq : q = p
    · simp only [fsRemove, if_pos hq] at h
      exact List.mem_cons_of_mem _ (ih h)
    · simp only [fsRemove, if_neg hq] at h
      rcases List.mem_cons.mp h with he | he
      · exact he ▸ List.mem_cons_self _ _
      · exact List.mem_cons_of_mem _ (ih he)

/-- A path outside the destination subtree is absent from a filesystem
whose keys all lie inside it, and vice versa. -/
theorem fsGet_none_of_pfx_mismatch {fs : FS} {dpre p : PPath} {b1 b2 : Bool}
    (hkeys : ∀ e ∈ fs, hasPfx dpre e.1 = b1) (hp : hasPfx dpre p = b2)
    (hne : b1 ≠ b2) : fsGet fs p = none :=
  fsGet_eq_none_of_ne (fun e he heq => hne (by rw [← heq] at hp; rw [hkeys e he] at hp; exact hp.symm ▸ rfl))

theorem ledgerMatches_isEmpty {fs0 : FS} : ∀ {h : Ledger} {created : FS},
    ledgerMatches fs0 h created → h.isEmpty = created.isEmpty := by
  intro h created hm
  cases h with
  | nil => cases created with
    | nil => rfl
    | cons e t => cases hm
  | cons e t => cases created with
    | nil => cases hm
    | cons e2 t2 => rfl

theorem ledgerMatches_lookup {fs0 : FS} : ∀ {h : Ledger} {created : FS},
    ledgerMatches fs0 h created → ∀ p,
      (histGet h p).isSome = (fsGet created p).isSome ∧
      (histGet h p).bind (fsGet fs0) = fsGet created p := by
  intro h
  induction h with
  | nil =>
    intro created hm p
    cases created with
    | nil => exact ⟨rfl, rfl⟩
    | cons e t => cases hm
  | cons e t ih =>
    intro created hm p
    obtain ⟨pe, se⟩ := e
    cases created with
    | nil => cases hm
    | cons e2 t2 =>
      obtain ⟨qe, ce⟩ := e2
      obtain ⟨hpq, hc, hrec⟩ := hm
      subst hpq
      by_cases hp : pe = p
      · subst hp
        simp [histGet, fsGet, hc]
      · simpa [histGet, fsGet, hp] using ih hrec p

theorem ledgerMatches_extend {fs0 : FS} {q f : PPath} {c : Content}
    (hf : fsGet fs0 f = some c) : ∀ {h : Ledger} {created : FS},
    ledgerMatches fs0 h created →
    ledgerMatches fs0 (h ++ [(q, f)]) (created ++ [(q, c)]) := by
  intro h
  induction h with
  | nil =>
    intro created hm
    cases created with
    | nil => exact ⟨rfl, hf, trivial⟩
    | cons e t => cases hm
  | cons e t ih =>
    intro created hm
    obtain ⟨pe, se⟩ := e
    cases created with
    | nil => cases hm
    | cons e2 t2 =>
      obtain ⟨qe, ce⟩ := e2
      obtain ⟨hpq, hc, hrec⟩ := hm
      exact ⟨hpq, hc, ih hrec⟩

/-! ## Shape of destination paths -/
theorem newDirOf_shape (dest nd : PPath) (dt : Option PDate) :
    ∃ X, newDirOf dest nd dt = dest ++ '/' :: X := by
  cases dt with
  | none => exact ⟨nd, rfl⟩
  | some d =>
    refine ⟨natRepr d.year ++ '/' :: (pad2 d.month ++ '-' :: monthAbbrev d.month), ?_⟩
    simp [newDirOf, pathJoin]

/-- The desired destination path lies in the destination subtree, and its
`splitext` root keeps at least `dest_dir` plus the separator. -/
theorem desiredPath_pfx (file_path : PPath) (dt : Option PDate) (dest nd : PPath) :
    hasPfx (dest ++ ['/']) (desiredPath file_path dt dest nd) = true ∧
    (dest ++ ['/']).length ≤ splitextIdx (desiredPath file_path dt dest nd) := by
  obtain ⟨X, hX⟩ := newDirOf_shape dest nd dt
  have hshape : desiredPath file_path dt dest nd =
      (dest ++ '/' :: X) ++ '/' :: basename file_path := by
    rw [desiredPath, hX]; rfl
  constructor
  · rw [hshape]
    have : (dest ++ '/' :: X) ++ '/' :: basename file_path =
        (dest ++ ['/']) ++ (X ++ '/' :: basename file_path) := by
      simp
    rw [this]
    exact hasPfx_append _ _
  · obtain ⟨j, hj, hjlen⟩ := rfindIdx_append_self '/' (dest ++ '/' :: X) (basename file_path)
    rw [hshape]
    have hlt := lt_splitextIdx_of_slash hj
    simp only [List.length_append, List.length_cons, List.length_nil] at hjlen ⊢
    omega

theorem topCand_pfx {dpre desired : PPath} (hd : hasPfx dpre desired = true)
    (hb : dpre.length ≤ splitextIdx desired) (k : Nat) :
    hasPfx dpre (topCand desired k) = true := by
  cases k with
  | zero => exact hd
  | succ n =>
    have hbase : hasPfx dpre (splitext desired).1 = true := hasPfx_take hd hb
    exact hasPfx_extend hbase _

/-! ## Dry run vs live run: per-file resolver agreement -/
theorem resolve_dry_live_eq
    (fs0 rest created : FS) (h : Ledger) (dpre : PPath)
    (hclean0 : ∀ e ∈ fs0, hasPfx dpre e.1 = false)
    (hcleanR : ∀ e ∈ rest, hasPfx dpre e.1 = false)
    (hcreated : ∀ e ∈ created, hasPfx dpre e.1 = true)
    (hmatch : ledgerMatches fs0 h created)
    (new_path f : PPath)
    (hnp : hasPfx dpre new_path = true)
    (hbase : dpre.length ≤ splitextIdx new_path)
    (hsrc : fsGet (rest ++ created) f = fsGet fs0 f) :
    resolve_duplicate new_path f (some h) fs0 =
    resolve_duplicate new_path f none (rest ++ created) := by
  have hcl : ∀ q, hasPfx dpre q = true →
      claimedOf (some h) fs0 q = claimedOf none (rest ++ created) q := by
    intro q hq
    have hrest : fsGet rest q = none :=
      fsGet_none_of_pfx_mismatch hcleanR hq (by simp)
    have hfs0 : fsGet fs0 q = none :=
      fsGet_none_of_pfx_mismatch hclean0 hq (by simp)
    have hlive : fsGet (rest ++ created) q = fsGet created q := fsGet_append_none hrest _
    by_cases he : h.isEmpty
    · have hce : created.isEmpty := (ledgerMatches_isEmpty hmatch) ▸ he
      have hcnil : created = [] := by
        cases created with
        | nil => rfl
        | cons e t => simp [List.isEmpty] at hce
      simp [claimedOf, he, fsExists, hfs0, hlive, hcnil, fsGet, hrest]
    · have hkey := (ledgerMatches_lookup hmatch q).1
      simp [claimedOf, he, fsExists, hlive, hkey]
  have hoc : ∀ q, hasPfx dpre q = true →
      occOf (some h) fs0 q = occOf none (rest ++ created) q := by
    intro q hq
    have hrest : fsGet rest q = none :=
      fsGet_none_of_pfx_mismatch hcleanR hq (by simp)
    have hfs0 : fsGet fs0 q = none :=
      fsGet_none_of_pfx_mismatch hclean0 hq (by simp)
    have hlive : fsGet (rest ++ created) q = fsGet created q := fsGet_append_none hrest _
    by_cases he : h.isEmpty
    · have hce : created.isEmpty := (ledgerMatches_isEmpty hmatch) ▸ he
      have hcnil : created = [] := by
        cases created with
        | nil => rfl
        | cons e t => simp [List.isEmpty] at hce
      simp [occOf, he, hfs0, hlive, hcnil, fsGet, hrest]
    · have hbindeq := (ledgerMatches_lookup hmatch q).2
      simp [occOf, he, hlive, hbindeq]
  have hbpfx : hasPfx dpre (splitext new_path).1 = true := hasPfx_take hnp hbase
  obtain ⟨r1, hr1⟩ := resolve_duplicate_total new_path f (some h) fs0
  obtain ⟨r2, hr2⟩ := resolve_duplicate_total new_path f none (rest ++ created)
  set F := max (resolveFuel (some h) fs0) (resolveFuel none (rest ++ created)) with hF
  have hr1F := resolveLoop_le (claimedOf (some h) fs0) (occOf (some h) fs0)
    (fsGet fs0 f) (splitext new_path).1 (splitext new_path).2
    (Nat.le_max_left (resolveFuel (some h) fs0) (resolveFuel none (rest ++ created))) hr1
  have hr2F := resolveLoop_le (claimedOf none (rest ++ created))
    (occOf none (rest ++ created)) (fsGet (rest ++ created) f)
    (splitext new_path).1 (splitext new_path).2
    (Nat.le_max_right (resolveFuel (some h) fs0) (resolveFuel none (rest ++ created))) hr2
  rw [hsrc] at hr2F
  have hcongr := resolveLoop_congr dpre (splitext new_path).1 (splitext new_path).2
    (claimedOf (some h) fs0) (claimedOf none (rest ++ created))
    (occOf (some h) fs0) (occOf none (rest ++ created)) (fsGet fs0 f)
    hbpfx hcl hoc F new_path 1 hnp
  rw [hr1F, hr2F] at hcongr
  have hr12 : r1 = r2 := Option.some.inj hcongr
  rw [resolve_duplicate, resolve_duplicate, hr1, hr2, hr12]

/-! ## Generic facts about `resolve_duplicate` results (helpers) -/
theorem resolve_duplicate_cases (new_path source_path : PPath)
    (hist : Option Ledger) (fs : FS) :
    (∀ q, resolve_duplicate new_path source_path hist fs = some q →
      claimedOf hist fs q = false ∧ ∃ k, q = topCand new_path k) ∧
    (resolve_duplicate new_path source_path hist fs = none →
      ∃ p2, claimedOf hist fs p2 = true ∧
        occOf hist fs p2 = fsGet fs source_path) := by
  obtain ⟨r, hr⟩ := resolve_duplicate_total new_path source_path hist fs
  have hres : resolve_duplicate new_path source_path hist fs = r := by
    rw [resolve_duplicate, hr]
    rfl
  have hr0 : resolveLoop (claimedOf hist fs) (occOf hist fs) (fsGet fs source_path)
      (splitext new_path).1 (splitext new_path).2
      (resolveFuel hist fs) (topCand new_path 0) (0 + 1) = some r := hr
  obtain ⟨k, _, hchain, hend⟩ :=
    resolveLoop_spec (claimedOf hist fs) (occOf hist fs) (fsGet fs source_path)
      new_path (resolveFuel hist fs) 0 r hr0
  constructor
  · intro q hq
    rw [hres] at hq
    subst hq
    rcases hend with ⟨q2, hq2, hq2c, hq2f⟩ | ⟨hnone, _, _⟩
    · cases hq2
      exact ⟨hq2c ▸ hq2f, k, hq2c⟩
    · cases hnone
  · intro hq
    rw [hres] at hq
    subst hq
    rcases hend with ⟨q2, hq2, _, _⟩ | ⟨_, hcl, hocc⟩
    · cases hq2
    · exact ⟨topCand new_path k, hcl, hocc⟩

theorem runFiles_cons (fd : PPath × Option PDate) (tl : List (PPath × Option PDate))
    (dest : PPath) (dry move : Bool) (nd : PPath) (st : PMState) :
    runFiles (fd :: tl) dest dry move nd st =
    runFiles tl dest dry move nd (process_file fd.1 fd.2 dest dry move nd st) := rfl

theorem fsExists_false_none {fs : FS} {p : PPath}
    (h : fsExists fs p = false) : fsGet fs p = none := by
  cases hg : fsGet fs p with
  | none => rfl
  | some c => rw [fsExists, hg] at h; cases h

theorem process_file_dry_dup (f : PPath) (dt : Option PDate) (dest nd : PPath)
    (move : Bool) (fs0 : FS) (h : Ledger) (stats : Stats)
    (log : List (PPath × Option PPath))
    (hres : resolve_duplicate (desiredPath f dt dest nd) f (some h) fs0 = none) :
    process_file f dt dest true move nd ⟨fs0, some h, stats, log⟩ =
      ⟨fs0, some h, postStats stats dt (desiredPath f dt dest nd) none,
        log ++ [(f, none)]⟩ := by
  simp only [process_file]
  rw [hres]
  simp [postStats]

theorem process_file_live_dup (f : PPath) (dt : Option PDate) (dest nd : PPath)
    (move : Bool) (fsL : FS) (stats : Stats) (log : List (PPath × Option PPath))
    (hres : resolve_duplicate (desiredPath f dt dest nd) f none fsL = none) :
    process_file f dt dest false move nd ⟨fsL, none, stats, log⟩ =
      ⟨if move then fsRemove fsL f else fsL, none,
        postStats stats dt (desiredPath f dt dest nd) none, log ++ [(f, none)]⟩ := by
  simp only [process_file]
  rw [hres]
  cases move <;> simp [postStats]

theorem process_file_dry_placed (f : PPath) (dt : Option PDate) (dest nd : PPath)
    (move : Bool) (fs0 : FS) (h : Ledger) (stats : Stats)
    (log : List (PPath × Option PPath)) (q : PPath)
    (hres : resolve_duplicate (desiredPath f dt dest nd) f (some h) fs0 = some q) :
    process_file f dt dest true move nd ⟨fs0, some h, stats, log⟩ =
      ⟨fs0, some (h ++ [(q, f)]),
        postStats stats dt (desiredPath f dt dest nd) (some q),
        log ++ [(f, some q)]⟩ := by
  simp only [process_file]
  rw [hres]
  simp [postStats]

theorem process_file_live_placed (f : PPath) (dt : Option PDate) (dest nd : PPath)
    (move : Bool) (fsL : FS) (stats : Stats) (log : List (PPath × Option PPath))
    (q : PPath) (c : Content)
    (hres : resolve_duplicate (desiredPath f dt dest nd) f none fsL = some q)
    (hgf : fsGet fsL f = some c) :
    process_file f dt dest false move nd ⟨fsL, none, stats, log⟩ =
      ⟨(if move then fsRemove fsL f else fsL) ++ [(q, c)], none,
        postStats stats dt (desiredPath f dt dest nd) (some q),
        log ++ [(f, some q)]⟩ := by
  simp only [process_file]
  rw [hres, hgf]
  cases move <;> simp [postStats]

/-- Dry run vs live run, generalized over the run prefix already
performed: provided the original filesystem has an empty destination
subtree, sources are distinct and exist, the two modes keep identical
counters and identical decision logs. -/
theorem runFiles_dry_live_inv (dest nd : PPath) (move : Bool) (fs0 : FS)
    (hclean0 : ∀ e ∈ fs0, hasPfx (dest ++ ['/']) e.1 = false) :
    ∀ (files : List (PPath × Option PDate)) (rest created : FS) (h : Ledger)
      (stats : Stats) (log : List (PPath × Option PPath)),
      (∀ e ∈ rest, hasPfx (dest ++ ['/']) e.1 = false) →
      (∀ e ∈ created, hasPfx (dest ++ ['/']) e.1 = true) →
      ledgerMatches fs0 h created →
      (∀ fd ∈ files, (fsGet fs0 fd.1).isSome = true) →
      (∀ fd ∈ files, fsGet rest fd.1 = fsGet fs0 fd.1) →
      (files.map Prod.fst).Nodup →
      (runFiles files dest true move nd ⟨fs0, some h, stats, log⟩).stats =
        (runFiles files dest false move nd ⟨rest ++ created, none, stats, log⟩).stats ∧
      (runFiles files dest true move nd ⟨fs0, some h, stats, log⟩).log =
        (runFiles files dest false move nd ⟨rest ++ created, none, stats, log⟩).log := by
  intro files
  induction files with
  | nil =>
    intro rest created h stats log _ _ _ _ _ _
    exact ⟨rfl, rfl⟩
  | cons fd tl ih =>
    intro rest created h stats log hcleanR hcreated hmatch hsrcs hstable hnodup
    obtain ⟨f, dt⟩ := fd
    obtain ⟨hnp, hsext⟩ := desiredPath_pfx f dt dest nd
    have hmemf : ((f, dt) : PPath × Option PDate) ∈ (f, dt) :: tl :=
      List.mem_cons_self _ _
    obtain ⟨c, hc⟩ := Option.isSome_iff_exists.mp (hsrcs _ hmemf)
    have hrf : fsGet rest f = some c := (hstable _ hmemf).trans hc
    have hsrc : fsGet (rest ++ created) f = fsGet fs0 f :=
      (fsGet_append_left hrf created).trans hc.symm
    have hreq := resolve_dry_live_eq fs0 rest created h (dest ++ ['/'])
      hclean0 hcleanR hcreated hmatch (desiredPath f dt dest nd) f hnp hsext hsrc
    have hfnot : hasPfx (dest ++ ['/']) f = false := by
      have hex : (fsGet fs0 f).isSome = true := by
        rw [show fsGet fs0 f = some c from hc]
        rfl
      obtain ⟨e, he, hef⟩ := List.mem_map.mp (fsGet_isSome_mem hex)
      have hef2 : e.1 = f := hef
      rw [← hef2]
      exact hclean0 e he
    have hnodup_tl : (tl.map Prod.fst).Nodup := (List.nodup_cons.mp hnodup).2
    have hfne : ∀ fd2 ∈ tl, fd2.1 ≠ f := by
      intro fd2 hfd2 heq
      have hmem : fd2.1 ∈ tl.map Prod.fst := List.mem_map_of_mem Prod.fst hfd2
      rw [heq] at hmem
      exact (List.nodup_cons.mp hnodup).1 hmem
    have hcf : fsGet created f = none :=
      fsGet_none_of_pfx_mismatch hcreated hfnot (by simp)
    rw [runFiles_cons, runFiles_cons]
    cases hres : resolve_duplicate (desiredPath f dt dest nd) f (some h) fs0 with
    | none =>
      have hresL : resolve_duplicate (desiredPath f dt dest nd) f none (rest ++ created) = none :=
        hreq.symm.trans hres
      rw [process_file_dry_dup f dt dest nd move fs0 h stats log hres,
          process_file_live_dup f dt dest nd move (rest ++ created) stats log hresL]
      have hrw : (if move then fsRemove (rest ++ created) f else rest ++ created) =
          (if move then fsRemove rest f else rest) ++ created := by
        cases move
        · rfl
        · simp [fsRemove_append, fsRemove_eq_of_none hcf]
      rw [hrw]
      refine ih (if move then fsRemove rest f else rest) created h _ _ ?_ hcreated hmatch
        (fun fd2 h2 => hsrcs fd2 (List.mem_cons_of_mem _ h2)) ?_ hnodup_tl
      · intro e he
        cases move
        · exact hcleanR e he
        · exact hcleanR e (mem_of_mem_fsRemove he)
      · intro fd2 h2
        cases move
        · exact hstable fd2 (List.mem_cons_of_mem _ h2)
        · rw [show (if true then fsRemove rest f else rest) = fsRemove rest f from rfl,
              fsGet_fsRemove_ne (hfne fd2 h2)]
          exact hstable fd2 (List.mem_cons_of_mem _ h2)
    | some q =>
      have hresL : resolve_duplicate (desiredPath f dt dest nd) f none (rest ++ created) = some q :=
        hreq.symm.trans hres
      obtain ⟨hqdry, k, hqtop⟩ :=
        (resolve_duplicate_cases (desiredPath f dt dest nd) f (some h) fs0).1 q hres
      have hqpfx : hasPfx (dest ++ ['/']) q = true := by
        rw [hqtop]
        exact topCand_pfx hnp hsext k
      have hgf : fsGet (rest ++ created) f = some c := fsGet_append_left hrf created
      rw [process_file_dry_placed f dt dest nd move fs0 h stats log q hres,
          process_file_live_placed f dt dest nd move (rest ++ created) stats log q c hresL hgf]
      have hrw : (if move then fsRemove (rest ++ created) f else rest ++ created) ++ [(q, c)] =
          (if move then fsRemove rest f else rest) ++ (created ++ [(q, c)]) := by
        cases move
        · simp
        · simp [fsRemove_append, fsRemove_eq_of_none hcf]
      rw [hrw]
      refine ih (if move then fsRemove rest f else rest) (created ++ [(q, c)])
        (h ++ [(q, f)]) _ _ ?_ ?_ (ledgerMatches_extend hc hmatch)
        (fun fd2 h2 => hsrcs fd2 (List.mem_cons_of_mem _ h2)) ?_ hnodup_tl
      · intro e he
        cases move
        · exact hcleanR e he
        · exact hcleanR e (mem_of_mem_fsRemove he)
      · intro e he
        rcases List.mem_append.mp he with h1 | h1
        · exact hcreated e h1
        · rw [List.mem_singleton.mp h1]
          exact hqpfx
      · intro fd2 h2
        cases move
        · exact hstable fd2 (List.mem_cons_of_mem _ h2)
        · rw [show (if true then fsRemove rest f else rest) = fsRemove rest f from rfl,
              fsGet_fsRemove_ne (hfne fd2 h2)]
          exact hstable fd2 (List.mem_cons_of_mem _ h2)

/-- C2 (amended): dry-run and live runs produce identical counters and
identical per-file decisions (planned destination paths and
duplicate/rename outcomes) *provided* the initial filesystem contains no
file inside the destination subtree `dest_dir + '/'`, the source paths
are distinct, and every source exists.  (Without the first hypothesis the
claim is false — see the counterexample.) -/
theorem C2_amended_dry_live_equiv (dest nd : PPath) (move : Bool) (fs0 : FS)
    (files : List (PPath × Option PDate))
    (hclean0 : ∀ e ∈ fs0, hasPfx (dest ++ ['/']) e.1 = false)
    (hsrcs : ∀ fd ∈ files, (fsGet fs0 fd.1).isSome = true)
    (hnodup : (files.map Prod.fst).Nodup) :
    (runFiles files dest true move nd (initState fs0 true)).stats =
      (runFiles files dest false move nd (initState fs0 false)).stats ∧
    (runFiles files dest true move nd (initState fs0 true)).log =
      (runFiles files dest false move nd (initState fs0 false)).log := by
  have hmain := runFiles_dry_live_inv dest nd move fs0 hclean0 files fs0 [] []
    zeroStats [] hclean0 (fun e he => absurd he (List.not_mem_nil e)) trivial
    hsrcs (fun fd _ => rfl) hnodup
  simpa [initState] using hmain

theorem C2_amended_witness :
    (∀ e ∈ c2wfs, hasPfx ("d".data ++ ['/']) e.1 = false) ∧
    (∀ fd ∈ c2wfiles, (fsGet c2wfs fd.1).isSome = true) ∧
    (c2wfiles.map Prod.fst).Nodup ∧
    ((runFiles c2wfiles "d".data true false "u".data (initState c2wfs true)).stats =
      (runFiles c2wfiles "d".data false false "u".data (initState c2wfs false)).stats ∧
    (runFiles c2wfiles "d".data true false "u".data (initState c2wfs true)).log =
      (runFiles c2wfiles "d".data false false "u".data (initState c2wfs false)).log) :=
  ⟨by decide, by decide, by decide,
    C2_amended_dry_live_equiv "d".data "u".data false c2wfs c2wfiles
      (by decide) (by decide) (by decide)⟩

/-- C2 (counterexample): with a pre-existing file in the destination
subtree, a dry run and a live run decide differently: once the ledger is
non-empty the dry run consults *only* the ledger, never the real
filesystem, so it plans `d/u/b.jpg` while the live run renames to
`d/u/b_1.jpg`.  The ledger therefore does not answer the existence query
as the filesystem would, refuting the claim as stated. -/
theorem C2_pre_existing_dest_breaks_dry_run :
    ¬((runFiles c2cfiles "d".data true false "u".data (initState c2cfs true)).log =
      (runFiles c2cfiles "d".data false false "u".data (initState c2cfs false)).log) := by
  decide

theorem chainProp_extend {fs : FS} {desired : PPath} {c : Content}
    (h : chainProp fs desired c) (ext : FS) :
    chainProp (fs ++ ext) desired c := by
  obtain ⟨k, hbelow, hat⟩ := h
  refine ⟨k, ?_, fsGet_append_left hat ext⟩
  intro i hi
  obtain ⟨ci, hci, hne⟩ := hbelow i hi
  exact ⟨ci, fsGet_append_left hci ext, hne⟩

theorem fsGet_some_mem_snd {fs : FS} {p : PPath} {c : Content}
    (h : fsGet fs p = some c) : c ∈ fs.map Prod.snd := by
  induction fs with
  | nil => cases h
  | cons qc rest ih =>
    obtain ⟨q, c0⟩ := qc
    by_cases hq : q = p
    · subst hq
      simp only [fsGet, if_pos rfl] at h
      cases h
      simp
    · simp only [fsGet, if_neg hq] at h
      simpa using Or.inr (ih h)

/-- In live mode, a file whose candidate chain already ends in its own
content resolves as a duplicate. -/
theorem resolve_none_of_chain (np f : PPath) (fs : FS) (c : Content)
    (hsrc : fsGet fs f = some c) (hchain : chainProp fs np c) :
    resolve_duplicate np f none fs = none := by
  obtain ⟨k, hbelow, hat⟩ := hchain
  obtain ⟨r, hr⟩ := resolve_duplicate_total np f none fs
  have hres : resolve_duplicate np f none fs = r := by
    rw [resolve_duplicate, hr]
    rfl
  have hr0 : resolveLoop (claimedOf none fs) (occOf none fs) (fsGet fs f)
      (splitext np).1 (splitext np).2 (resolveFuel none fs)
      (topCand np 0) (0 + 1) = some r := hr
  obtain ⟨k2, _, hloop, hend⟩ :=
    resolveLoop_spec (claimedOf none fs) (occOf none fs) (fsGet fs f)
      np (resolveFuel none fs) 0 r hr0
  rcases hend with ⟨q, hq, hqe, hqcl⟩ | ⟨hnone, _, _⟩
  · exfalso
    rcases Nat.lt_trichotomy k2 k with hlt | heq | hgt
    · obtain ⟨ci, hci, _⟩ := hbelow k2 hlt
      have : claimedOf none fs (topCand np k2) = true := by
        simp [claimedOf, fsExists, hci]
      rw [this] at hqcl
      cases hqcl
    · subst heq
      have : claimedOf none fs (topCand np k2) = true := by
        simp [claimedOf, fsExists, hat]
      rw [this] at hqcl
      cases hqcl
    · have hocc := (hloop k (Nat.zero_le k) hgt).2
      have : occOf none fs (topCand np k) = fsGet fs f := by
        show fsGet fs (topCand np k) = fsGet fs f
        rw [hat, hsrc]
      exact hocc this
  · exact hres.trans hnone

theorem postStats_none_proj (stats : Stats) (dt : Option PDate) (np : PPath) :
    (postStats stats dt np none).duplicates = stats.duplicates + 1 ∧
    (postStats stats dt np none).processed = stats.processed := by
  by_cases h1 : dt.isNone <;> simp [postStats, h1]

theorem postStats_some_proj (stats : Stats) (dt : Option PDate) (np q : PPath) :
    (postStats stats dt np (some q)).duplicates = stats.duplicates ∧
    (postStats stats dt np (some q)).processed = stats.processed + 1 := by
  by_cases h1 : dt.isNone <;> by_cases h2 : q = np <;> simp [postStats, h1, h2]

/-- Second copy run over an unchanged filesystem in which every file's
candidate chain already ends in its own content: nothing is created, and
every file counts as a duplicate. -/
theorem run2_copy (dest nd : PPath) (fs1 : FS) :
    ∀ (files : List (PPath × Option PDate)) (stats : Stats)
      (log : List (PPath × Option PPath)),
      (∀ fd ∈ files, ∃ c, fsGet fs1 fd.1 = some c ∧
        chainProp fs1 (desiredPath fd.1 fd.2 dest nd) c) →
      (runFiles files dest false false nd ⟨fs1, none, stats, log⟩).fs = fs1 ∧
      (runFiles files dest false false nd ⟨fs1, none, stats, log⟩).hist = none ∧
      (runFiles files dest false false nd ⟨fs1, none, stats, log⟩).stats.duplicates =
        stats.duplicates + files.length ∧
      (runFiles files dest false false nd ⟨fs1, none, stats, log⟩).stats.processed =
        stats.processed := by
  intro files
  induction files with
  | nil =>
    intro stats log _
    exact ⟨rfl, rfl, by simp [runFiles], rfl⟩
  | cons fd tl ih =>
    intro stats log hchains
    obtain ⟨f, dt⟩ := fd
    obtain ⟨c, hc, hchain⟩ := hchains _ (List.mem_cons_self _ _)
    have hres := resolve_none_of_chain (desiredPath f dt dest nd) f fs1 c hc hchain
    rw [runFiles_cons, process_file_live_dup f dt dest nd false fs1 stats log hres]
    rw [show (if false then fsRemove fs1 f else fs1) = fs1 from rfl]
    obtain ⟨h1, h2, h3, h4⟩ := ih (postStats stats dt (desiredPath f dt dest nd) none)
      (log ++ [(f, none)]) (fun fd2 hm => hchains fd2 (List.mem_cons_of_mem _ hm))
    refine ⟨h1, h2, ?_, ?_⟩
    · rw [h3, (postStats_none_proj stats dt (desiredPath f dt dest nd)).1]
      simp only [List.length_cons]
      omega
    · rw [h4, (postStats_none_proj stats dt (desiredPath f dt dest nd)).2]

/-- A live-mode duplicate leaves the file's candidate chain in place:
some candidate holds the source's content, all earlier ones differ. -/
theorem chain_of_resolve_none (np f : PPath) (fs : FS) (c : Content)
    (hsrc : fsGet fs f = some c)
    (hres : resolve_duplicate np f none fs = none) :
    chainProp fs np c := by
  obtain ⟨r, hr⟩ := resolve_duplicate_total np f none fs
  have hres2 : resolve_duplicate np f none fs = r := by
    rw [resolve_duplicate, hr]
    rfl
  have hrnone : r = none := hres2.symm.trans hres
  subst hrnone
  have hr0 : resolveLoop (claimedOf none fs) (occOf none fs) (fsGet fs f)
      (splitext np).1 (splitext np).2 (resolveFuel none fs)
      (topCand np 0) (0 + 1) = some none := hr
  obtain ⟨k, _, hloop, hend⟩ :=
    resolveLoop_spec (claimedOf none fs) (occOf none fs) (fsGet fs f)
      np (resolveFuel none fs) 0 none hr0
  rcases hend with ⟨q, hq, _, _⟩ | ⟨_, hcl, hocc⟩
  · cases hq
  · refine ⟨k, ?_, ?_⟩
    · intro i hi
      obtain ⟨hcl2, hocc2⟩ := hloop i (Nat.zero_le i) hi
      have hex : (fsGet fs (topCand np i)).isSome = true := hcl2
      obtain ⟨ci, hci⟩ := Option.isSome_iff_exists.mp hex
      refine ⟨ci, hci, ?_⟩
      intro hcic
      apply hocc2
      show fsGet fs (topCand np i) = fsGet fs f
      rw [hci, hsrc, hcic]
    · have : fsGet fs (topCand np k) = fsGet fs f := hocc
      rw [this, hsrc]

/-- A live-mode placement lands on a fresh candidate and establishes the
file's candidate chain in the grown filesystem. -/
theorem chain_of_resolve_some (np f q : PPath) (fs : FS) (c : Content)
    (hsrc : fsGet fs f = some c)
    (hres : resolve_duplicate np f none fs = some q) :
    fsGet fs q = none ∧ chainProp (fs ++ [(q, c)]) np c := by
  obtain ⟨r, hr⟩ := resolve_duplicate_total np f none fs
  have hres2 : resolve_duplicate np f none fs = r := by
    rw [resolve_duplicate, hr]
    rfl
  have hrq : r = some q := hres2.symm.trans hres
  subst hrq
  have hr0 : resolveLoop (claimedOf none fs) (occOf none fs) (fsGet fs f)
      (splitext np).1 (splitext np).2 (resolveFuel none fs)
      (topCand np 0) (0 + 1) = some (some q) := hr
  obtain ⟨k, _, hloop, hend⟩ :=
    resolveLoop_spec (claimedOf none fs) (occOf none fs) (fsGet fs f)
      np (resolveFuel none fs) 0 (some q) hr0
  rcases hend with ⟨q2, hq2, hq2e, hq2cl⟩ | ⟨hnone, _, _⟩
  · have hqq : q = q2 := Option.some.inj hq2
    subst hqq
    subst hq2e
    have hqfresh : fsGet fs (topCand np k) = none :=
      fsExists_false_none hq2cl
    refine ⟨hqfresh, k, ?_, fsGet_snoc_self hqfresh c⟩
    intro i hi
    obtain ⟨hcl2, hocc2⟩ := hloop i (Nat.zero_le i) hi
    have hex : (fsGet fs (topCand np i)).isSome = true := hcl2
    obtain ⟨ci, hci⟩ := Option.isSome_iff_exists.mp hex
    refine ⟨ci, fsGet_append_left hci _, ?_⟩
    intro hcic
    apply hocc2
    show fsGet fs (topCand np i) = fsGet fs f
    rw [hci, hsrc, hcic]
  · cases hnone

/-- First copy run, fully general: the filesystem only grows, sources
keep their contents, and afterwards every processed file's candidate
chain ends in its own content. -/
theorem run1_chains (dest nd : PPath) :
    ∀ (files : List (PPath × Option PDate)) (fs : FS) (stats : Stats)
      (log : List (PPath × Option PPath)),
      (∀ fd ∈ files, (fsGet fs fd.1).isSome = true) →
      ∃ ext : FS,
        (runFiles files dest false false nd ⟨fs, none, stats, log⟩).fs = fs ++ ext ∧
        (runFiles files dest false false nd ⟨fs, none, stats, log⟩).hist = none ∧
        (∀ fd ∈ files, ∃ c, fsGet fs fd.1 = some c ∧
          chainProp ((runFiles files dest false false nd ⟨fs, none, stats, log⟩).fs)
            (desiredPath fd.1 fd.2 dest nd) c) := by
  intro files
  induction files with
  | nil =>
    intro fs stats log _
    exact ⟨[], by simp [runFiles], rfl, by simp⟩
  | cons fd tl ih =>
    intro fs stats log hsrcs
    obtain ⟨f, dt⟩ := fd
    have hmemf : ((f, dt) : PPath × Option PDate) ∈ (f, dt) :: tl :=
      List.mem_cons_self _ _
    obtain ⟨c, hc⟩ := Option.isSome_iff_exists.mp (hsrcs _ hmemf)
    rw [runFiles_cons]
    cases hres : resolve_duplicate (desiredPath f dt dest nd) f none fs with
    | none =>
      have hchain := chain_of_resolve_none (desiredPath f dt dest nd) f fs c hc hres
      rw [process_file_live_dup f dt dest nd false fs stats log hres]
      rw [show (if false then fsRemove fs f else fs) = fs from rfl]
      obtain ⟨ext, hfs, hhist, hchains⟩ :=
        ih fs (postStats stats dt (desiredPath f dt dest nd) none) (log ++ [(f, none)])
          (fun fd2 h2 => hsrcs fd2 (List.mem_cons_of_mem _ h2))
      refine ⟨ext, hfs, hhist, ?_⟩
      intro fd2 h2
      rcases List.mem_cons.mp h2 with h3 | h3
      · subst h3
        refine ⟨c, hc, ?_⟩
        rw [hfs]
        exact chainProp_extend hchain ext
      · exact hchains fd2 h3
    | some q =>
      obtain ⟨hqfresh, hchain⟩ :=
        chain_of_resolve_some (desiredPath f dt dest nd) f q fs c hc hres
      rw [process_file_live_placed f dt dest nd false fs stats log q c hres hc]
      rw [show ((if false then fsRemove fs f else fs) ++ [(q, c)] : FS) = fs ++ [(q, c)] from rfl]
      obtain ⟨ext, hfs, hhist, hchains⟩ :=
        ih (fs ++ [(q, c)]) (postStats stats dt (desiredPath f dt dest nd) (some q))
          (log ++ [(f, some q)])
          (fun fd2 h2 => by
            obtain ⟨c2, hc2⟩ := Option.isSome_iff_exists.mp
              (hsrcs fd2 (List.mem_cons_of_mem _ h2))
            rw [fsGet_append_left hc2]
            rfl)
      refine ⟨[(q, c)] ++ ext, ?_, hhist, ?_⟩
      · rw [hfs, List.append_assoc]
      · intro fd2 h2
        rcases List.mem_cons.mp h2 with h3 | h3
        · subst h3
          refine ⟨c, hc, ?_⟩
          rw [hfs]
          exact chainProp_extend hchain ext
        · obtain ⟨c2, hc2, hchain2⟩ := hchains fd2 h3
          obtain ⟨c4, hc4⟩ := Option.isSome_iff_exists.mp
            (hsrcs fd2 (List.mem_cons_of_mem _ h3))
          have hc5 : fsGet (fs ++ [(q, c)]) fd2.1 = some c4 := fsGet_append_left hc4 _
          have he : c2 = c4 := by
            rw [hc5] at hc2
            exact (Option.some.inj hc2).symm
          subst he
          exact ⟨c2, hc4, hchain2⟩

/-- C8: running the per-file pipeline twice in live copy mode over the
same source files against the same destination yields on the second run
zero newly-created files — the filesystem is unchanged — and a duplicate
count equal to the number of files of the first run, each of which still
exists unmodified (its content at its source and at a candidate of its
destination path, as the last conjunct exhibits); the second run places
nothing. -/
theorem C8_copy_idempotent (dest nd : PPath) (fs0 : FS)
    (files : List (PPath × Option PDate))
    (hsrcs : ∀ fd ∈ files, (fsGet fs0 fd.1).isSome = true) :
    (runFiles files dest false false nd
        ⟨(runFiles files dest false false nd (initState fs0 false)).fs, none,
          zeroStats, []⟩).fs =
      (runFiles files dest false false nd (initState fs0 false)).fs ∧
    (runFiles files dest false false nd
        ⟨(runFiles files dest false false nd (initState fs0 false)).fs, none,
          zeroStats, []⟩).stats.duplicates = files.length ∧
    (runFiles files dest false false nd
        ⟨(runFiles files dest false false nd (initState fs0 false)).fs, none,
          zeroStats, []⟩).stats.processed = 0 ∧
    (∀ fd ∈ files, ∃ c k, fsGet fs0 fd.1 = some c ∧
      fsGet ((runFiles files dest false false nd (initState fs0 false)).fs)
        (topCand (desiredPath fd.1 fd.2 dest nd) k) = some c) := by
  have hinit : initState fs0 false = ⟨fs0, none, zeroStats, []⟩ := rfl
  rw [hinit]
  obtain ⟨ext, hfs, hhist, hchains⟩ := run1_chains dest nd files fs0 zeroStats [] hsrcs
  have hchains2 : ∀ fd ∈ files, ∃ c,
      fsGet ((runFiles files dest false false nd ⟨fs0, none, zeroStats, []⟩).fs) fd.1 = some c ∧
      chainProp ((runFiles files dest false false nd ⟨fs0, none, zeroStats, []⟩).fs)
        (desiredPath fd.1 fd.2 dest nd) c := by
    intro fd hm
    obtain ⟨c, hc, hch⟩ := hchains fd hm
    refine ⟨c, ?_, hch⟩
    rw [hfs]
    exact fsGet_append_left hc _
  obtain ⟨h2fs, _, h2dup, h2proc⟩ := run2_copy dest nd
    ((runFiles files dest false false nd ⟨fs0, none, zeroStats, []⟩).fs)
    files zeroStats [] hchains2
  refine ⟨h2fs, ?_, ?_, ?_⟩
  · rw [h2dup]
    simp [zeroStats]
  · rw [h2proc]
    rfl
  · intro fd hm
    obtain ⟨c, hc, k, _, hat⟩ := hchains fd hm
    exact ⟨c, k, hc, hat⟩

theorem C8_copy_idempotent_witness :
    (∀ fd ∈ c8files, (fsGet c8fs0 fd.1).isSome = true) ∧
    ((runFiles c8files "d".data false false "u".data
        ⟨(runFiles c8files "d".data false false "u".data (initState c8fs0 false)).fs,
          none, zeroStats, []⟩).fs =
      (runFiles c8files "d".data false false "u".data (initState c8fs0 false)).fs ∧
    (runFiles c8files "d".data false false "u".data
        ⟨(runFiles c8files "d".data false false "u".data (initState c8fs0 false)).fs,
          none, zeroStats, []⟩).stats.duplicates = c8files.length) :=
  ⟨by decide,
    (C8_copy_idempotent "d".data "u".data c8fs0 c8files (by decide)).1,
    (C8_copy_idempotent "d".data "u".data c8fs0 c8files (by decide)).2.1⟩
